import Mathlib

/-!
Verification of the business/symptom import-and-query service
(`app/views.py`, `app/models.py`).

The persisted store (three relational tables, `app/models.py`) is embedded
as association lists; the two operations of `app/views.py` —
`import_business_symptoms` and `read_business_symptoms` — are embedded as
pure functions over that store.  The ORM session semantics of SQLAlchemy's
`merge` + single `commit` (with `autoflush=False`) are modelled by staging
the scalar values during the row loop and computing the net change at
commit time: a row is INSERTed when its key is absent, UPDATEd when a
staged scalar differs from the loaded value (firing the `onupdate`
timestamp), and left untouched otherwise.
-/

namespace BizSym

/-! ### Association lists (embedding of keyed tables / Python dicts) -/

variable {α : Type} {β : Type} [DecidableEq α]

/-- First-occurrence lookup in an association list. -/
def alook : List (α × β) → α → Option β
  | [], _ => none
  | (a, b) :: t, k => if a = k then some b else alook t k

/-- Keys of an association list, in order. -/
def akeys (l : List (α × β)) : List α := l.map Prod.fst

/-- Upsert: replace the value at the first occurrence of the key, or append
a fresh binding when the key is absent (embeds a keyed `merge`). -/
def aupsert (k : α) (v : β) : List (α × β) → List (α × β)
  | [] => [(k, v)]
  | (a, b) :: t => if a = k then (k, v) :: t else (a, b) :: aupsert k v t

omit [DecidableEq α] in
theorem akeys_nil : akeys ([] : List (α × β)) = [] := rfl

omit [DecidableEq α] in
theorem akeys_cons (a : α) (b : β) (t : List (α × β)) :
    akeys ((a, b) :: t) = a :: akeys t := rfl

theorem alook_aupsert (k k' : α) (v : β) (l : List (α × β)) :
    alook (aupsert k v l) k' = if k' = k then some v else alook l k' := by
  induction l with
  | nil =>
    show (if k = k' then some v else none) = _
    by_cases h : k' = k
    · subst h; simp
    · rw [if_neg (fun e => h e.symm), if_neg h]; rfl
  | cons p t ih =>
    obtain ⟨a, b⟩ := p
    by_cases hak : a = k
    · subst hak
      by_cases h : k' = a
      · subst h; simp [aupsert, alook]
      · have h' : a ≠ k' := fun e => h e.symm
        simp [aupsert, alook, h, h']
    · by_cases h : a = k'
      · have h' : k' ≠ k := fun e => hak (h.trans e)
        simp [aupsert, hak, alook, h, h']
      · simp [aupsert, hak, alook, h, ih]

theorem aupsert_self {k : α} {v : β} {l : List (α × β)}
    (h : alook l k = some v) : aupsert k v l = l := by
  induction l with
  | nil => simp [alook] at h
  | cons p t ih =>
    obtain ⟨a, b⟩ := p
    by_cases hak : a = k
    · subst hak
      simp [alook] at h
      simp [aupsert, h]
    · simp [alook, hak] at h
      simp [aupsert, hak, ih h]

theorem akeys_aupsert (k : α) (v : β) (l : List (α × β)) :
    akeys (aupsert k v l) = if k ∈ akeys l then akeys l else akeys l ++ [k] := by
  induction l with
  | nil => simp [aupsert, akeys]
  | cons p t ih =>
    obtain ⟨a, b⟩ := p
    by_cases hak : a = k
    · subst hak
      have : aupsert a v ((a, b) :: t) = (a, v) :: t := by simp [aupsert]
      rw [this, akeys_cons, akeys_cons, if_pos (List.mem_cons_self a (akeys t))]
    · have : aupsert k v ((a, b) :: t) = (a, b) :: aupsert k v t := by
        simp [aupsert, hak]
      rw [this, akeys_cons, akeys_cons, ih]
      by_cases hk : k ∈ akeys t
      · rw [if_pos hk, if_pos (List.mem_cons_of_mem a hk)]
      · rw [if_neg hk, if_neg (by
          intro hmem
          rcases List.mem_cons.mp hmem with h | h
          · exact hak h.symm
          · exact hk h)]
        rfl

theorem mem_akeys_aupsert (k : α) (v : β) (l : List (α × β)) :
    k ∈ akeys (aupsert k v l) := by
  rw [akeys_aupsert]
  by_cases h : k ∈ akeys l <;> simp [h]

theorem mem_akeys_aupsert_of_mem {k' : α} (k : α) (v : β) {l : List (α × β)}
    (h : k' ∈ akeys l) : k' ∈ akeys (aupsert k v l) := by
  rw [akeys_aupsert]
  by_cases hk : k ∈ akeys l <;> simp [hk, h]

theorem akeys_aupsert_of_mem {k : α} (v : β) {l : List (α × β)}
    (h : k ∈ akeys l) : akeys (aupsert k v l) = akeys l := by
  rw [akeys_aupsert, if_pos h]

theorem nodup_akeys_aupsert {k : α} {v : β} {l : List (α × β)}
    (h : (akeys l).Nodup) : (akeys (aupsert k v l)).Nodup := by
  rw [akeys_aupsert]
  by_cases hk : k ∈ akeys l
  · simpa [hk]
  · simpa [hk, List.nodup_append] using h

theorem alook_eq_none_of_not_mem {k : α} {l : List (α × β)}
    (h : k ∉ akeys l) : alook l k = none := by
  induction l with
  | nil => rfl
  | cons p t ih =>
    obtain ⟨a, b⟩ := p
    rw [akeys_cons, List.mem_cons] at h
    push_neg at h
    have hak : a ≠ k := fun e => h.1 e.symm
    simp [alook, hak, ih h.2]

theorem alook_isSome_of_mem_akeys {k : α} {l : List (α × β)}
    (h : k ∈ akeys l) : (alook l k).isSome := by
  induction l with
  | nil => simp [akeys_nil] at h
  | cons p t ih =>
    obtain ⟨a, b⟩ := p
    by_cases hak : a = k
    · simp [alook, hak]
    · rw [akeys_cons, List.mem_cons] at h
      rcases h with h | h
      · exact absurd h.symm hak
      · simp [alook, hak, ih h]

theorem alook_self_of_nodup {k : α} {v : β} {l : List (α × β)}
    (hnd : (akeys l).Nodup) (h : (k, v) ∈ l) : alook l k = some v := by
  induction l with
  | nil => simp at h
  | cons p t ih =>
    obtain ⟨a, b⟩ := p
    rw [akeys_cons, List.nodup_cons] at hnd
    rcases List.mem_cons.mp h with heq | hmem
    · obtain ⟨rfl, rfl⟩ := Prod.mk.injEq k v a b ▸ heq
      simp [alook]
    · have hak : a ≠ k := by
        rintro rfl
        exact hnd.1 (List.mem_map_of_mem Prod.fst hmem)
      simp [alook, hak, ih hnd.2 hmem]

/-- Extensionality for association lists: equal key sequences, equal
lookups and duplicate-free keys force list equality. -/
theorem alist_ext : ∀ {l₁ l₂ : List (α × β)},
    akeys l₁ = akeys l₂ → (∀ k, alook l₁ k = alook l₂ k) →
    (akeys l₁).Nodup → l₁ = l₂
  | [], [], _, _, _ => rfl
  | [], (a, b) :: _, hk, _, _ => by simp [akeys_nil, akeys_cons] at hk
  | (a, b) :: _, [], hk, _, _ => by simp [akeys_nil, akeys_cons] at hk
  | (a, b) :: t₁, (a₂, b₂) :: t₂, hk, hl, hnd => by
    rw [akeys_cons, akeys_cons] at hk
    rw [akeys_cons, List.nodup_cons] at hnd
    obtain ⟨rfl, hkt⟩ : a = a₂ ∧ akeys t₁ = akeys t₂ := by
      exact ⟨by injection hk, by injection hk⟩
    have hb : b = b₂ := by
      have := hl a
      simpa [alook] using this
    subst hb
    have ht : t₁ = t₂ := by
      refine alist_ext hkt (fun k => ?_) hnd.2
      by_cases hka : k = a
      · subst hka
        rw [alook_eq_none_of_not_mem hnd.1,
          alook_eq_none_of_not_mem (hkt ▸ hnd.1)]
      · have hak : a ≠ k := fun e => hka e.symm
        have := hl k
        simpa [alook, hak] using this
    rw [ht]

/-! ### Data model (`app/models.py`)

`Business(id, name)`, `Symptom(code, name)` carry no timestamps, so their
tables are embedded directly as association lists keyed by `id` / `code`.
`BusinessSymptom` has the composite key `(business_id, symptom_code)`, a
`diagnostic` boolean and the two timestamps (`default` / `onupdate`
`utcnow`); time is abstracted to a `Nat` passed in as "now". -/

structure Link where
  business_id : Int
  symptom_code : String
  diagnostic : Bool
  created_at : Nat
  updated_at : Nat
  deriving DecidableEq

/-- The persisted store: the three tables of `app/models.py`. -/
structure DB where
  businesses : List (Int × String)
  symptoms : List (String × String)
  links : List Link
  deriving DecidableEq

/-- Key of a `business_symptoms` row (composite primary key). -/
def Link.key (l : Link) : Int × String := (l.business_id, l.symptom_code)

/-- First-occurrence lookup of a link row by its composite key. -/
def lookupLink : List Link → Int × String → Option Link
  | [], _ => none
  | l :: t, k => if l.key = k then some l else lookupLink t k

/-- Keys of a link table, in order. -/
def linkKeys (ls : List Link) : List (Int × String) := ls.map Link.key

/-- Scalar (non-timestamp) content of a link table, as an association
list keyed by the composite key with the `diagnostic` value. -/
def linkVals (ls : List Link) : List ((Int × String) × Bool) :=
  ls.map (fun l => (l.key, l.diagnostic))

/-- Primary-key invariant of the store: each table's keys are unique. -/
def DB.Wellformed (db : DB) : Prop :=
  (akeys db.businesses).Nodup ∧ (akeys db.symptoms).Nodup ∧
    (linkKeys db.links).Nodup

/-! ### CSV row parsing (`import_business_symptoms`, `app/views.py`)

`csv.DictReader` turns each data row into a dict mapping the header's
column names to the row's fields (later duplicate header names shadow
earlier ones, hence the `reverse`).  The loop body reads the five columns,
parses the id with `int(...)`, trims the strings and derives the
diagnostic flag; any failed column access or failed `int` parse aborts the
import, which the spec's taxonomy calls `ValidationError`. -/

/-- A CSV upload after splitting: the header line and the data rows. -/
structure CSVInput where
  header : List String
  rows : List (List String)

/-- Column access `row[name]` on a `csv.DictReader` row. -/
def getCol (header vals : List String) (name : String) : Option String :=
  alook ((header.zip vals).reverse) name

/-- Python's `str.strip()`: drop whitespace from both ends. -/
def pyStrip (s : String) : String :=
  ⟨((s.data.dropWhile Char.isWhitespace).reverse.dropWhile
      Char.isWhitespace).reverse⟩

/-- Python's `str.lower()` (the relevant ASCII fragment). -/
def pyLower (s : String) : String := ⟨s.data.map Char.toLower⟩

/-- Value of a nonempty all-digit character sequence. -/
def digitsVal : List Char → Nat → Option Nat
  | [], acc => some acc
  | c :: t, acc =>
    if c.isDigit then digitsVal t (acc * 10 + (c.toNat - 48)) else none

/-- Embeds Python's `int(s)` on decimal strings: surrounding whitespace is
tolerated, an optional sign precedes a nonempty run of digits; anything
else fails. -/
def parseInt (s : String) : Option Int :=
  match (pyStrip s).data with
  | [] => none
  | '+' :: rest =>
    match rest with
    | [] => none
    | _ => (digitsVal rest 0).map Int.ofNat
  | '-' :: rest =>
    match rest with
    | [] => none
    | _ => (digitsVal rest 0).map (fun n => -(n : Int))
  | l => (digitsVal l 0).map Int.ofNat

/-- `row["Symptom Diagnostic"].strip().lower() in ("true", "1", "yes")`. -/
def parseDiag (s : String) : Bool :=
  decide (pyLower (pyStrip s) = "true") || decide (pyLower (pyStrip s) = "1") ||
    decide (pyLower (pyStrip s) = "yes")

/-- One CSV data row after the per-row parsing of the loop body. -/
structure ParsedRow where
  bizId : Int
  bizName : String
  symCode : String
  symName : String
  diag : Bool
  deriving DecidableEq

/-- The per-row parsing performed by the loop body of
`import_business_symptoms`, in source order; `none` is the aborted import
(`ValidationError`). -/
def parseRow (header vals : List String) : Option ParsedRow :=
  match getCol header vals "Business ID" with
  | none => none
  | some bizRaw =>
    match parseInt bizRaw with
    | none => none
    | some bizId =>
      match getCol header vals "Business Name" with
      | none => none
      | some bizName =>
        match getCol header vals "Symptom Code" with
        | none => none
        | some symCode =>
          match getCol header vals "Symptom Name" with
          | none => none
          | some symName =>
            match getCol header vals "Symptom Diagnostic" with
            | none => none
            | some diagRaw =>
              some ⟨bizId, pyStrip bizName, pyStrip symCode, pyStrip symName,
                parseDiag diagRaw⟩

/-- Parse every data row in order, stopping at the first failure. -/
def parseAll (header : List String) : List (List String) → Option (List ParsedRow)
  | [] => some []
  | r :: t =>
    match parseRow header r with
    | none => none
    | some p =>
      match parseAll header t with
      | none => none
      | some tl => some (p :: tl)

/-- The header of `business_symptom_data.csv` (§6 of the data contract). -/
def expectedCols : List String :=
  ["Business ID", "Business Name", "Symptom Code", "Symptom Name",
    "Symptom Diagnostic"]

/-! ### The import loop (`import_business_symptoms`) -/

/-- The scalar values staged in the ORM session during the row loop:
the three tables without timestamps (timestamps are only produced by the
column defaults at commit time). -/
structure Staged where
  businesses : List (Int × String)
  symptoms : List (String × String)
  links : List ((Int × String) × Bool)
  deriving DecidableEq

/-- Session state carried through the `for row in reader` loop:
the staged tables, the `seen_businesses` / `seen_symptoms` sets and
`row_count`. -/
structure LoopSt where
  staged : Staged
  seenB : List Int
  seenS : List String
  count : Nat
  deriving DecidableEq

/-- `if biz_id not in seen_businesses: db.merge(Business(...)); seen_businesses.add(biz_id)`
acting on the pair (seen set, staged businesses). -/
def stepB (sb : List Int × List (Int × String)) (p : ParsedRow) :
    List Int × List (Int × String) :=
  if p.bizId ∈ sb.1 then sb
  else (p.bizId :: sb.1, aupsert p.bizId p.bizName sb.2)

/-- `if sym_code not in seen_symptoms: db.merge(Symptom(...)); seen_symptoms.add(sym_code)`. -/
def stepS (ss : List String × List (String × String)) (p : ParsedRow) :
    List String × List (String × String) :=
  if p.symCode ∈ ss.1 then ss
  else (p.symCode :: ss.1, aupsert p.symCode p.symName ss.2)

/-- The unconditional `db.merge(BusinessSymptom(...))` on every row,
performed against the persisted link table `old` (the store does not
change during the transaction — nothing is flushed before commit).  When
the composite key is already persisted, `merge` loads that row on the
first occurrence and finds the same object in the identity map on later
occurrences, so repeated merges coalesce onto one staged value.  When the
key is absent from the store, the session runs with `autoflush=False`
(`app/database.py`): the SELECT issued by `merge` sees no flushed row and
the identity map holds no key for a pending object, so EVERY such merge
schedules its own pending INSERT — duplicate occurrences of a new key
produce duplicate pending INSERTs. -/
def stepL (old : List Link) (l : List ((Int × String) × Bool))
    (p : ParsedRow) : List ((Int × String) × Bool) :=
  if (lookupLink old (p.bizId, p.symCode)).isSome then
    aupsert (p.bizId, p.symCode) p.diag l
  else l ++ [((p.bizId, p.symCode), p.diag)]

/-- One iteration of the loop body after a successful row parse:
the guarded business merge, the guarded symptom merge, the unconditional
link merge (against the persisted links `old`) and `row_count += 1`. -/
def stepRow (old : List Link) (st : LoopSt) (p : ParsedRow) : LoopSt :=
  let b := stepB (st.seenB, st.staged.businesses) p
  let s := stepS (st.seenS, st.staged.symptoms) p
  ⟨⟨b.2, s.2, stepL old st.staged.links p⟩, b.1, s.1, st.count + 1⟩

/-- The whole `for row in reader` loop; a failed row parse aborts it. -/
inductive ImpErr where
  | validationError
  | importError
  deriving DecidableEq

def importLoop (old : List Link) (header : List String) :
    List (List String) → LoopSt → Except ImpErr LoopSt
  | [], st => .ok st
  | r :: rest, st =>
    match parseRow header r with
    | none => .error .validationError
    | some p => importLoop old header rest (stepRow old st p)

/-- Loop over already-parsed rows (used to reason about the loop). -/
def runP (old : List Link) (P : List ParsedRow) (st : LoopSt) : LoopSt :=
  P.foldl (stepRow old) st

/-- The session at the start of an import mirrors the persisted store. -/
def initStaged (db : DB) : Staged :=
  ⟨db.businesses, db.symptoms, linkVals db.links⟩

def initSt (db : DB) : LoopSt := ⟨initStaged db, [], [], 0⟩

/-! ### Commit (`db.commit()`)

At commit the unit of work compares the staged scalars against the loaded
rows: an absent key becomes an INSERT (column defaults set both
timestamps to now), a key whose staged `diagnostic` differs becomes an
UPDATE (`onupdate` refreshes `updated_at`, `created_at` untouched), and an
unchanged row produces no statement.  The storage engine enforces the
declared column constraints of `app/models.py` on the INSERTed/UPDATEd
rows — `String(100)` names, `String(20)` codes and the two foreign keys —
and a violation rejects the whole transaction, which the spec's taxonomy
calls `ImportError`. -/

/-- The row the commit leaves in the link table for one staged key/value:
kept as-is when unchanged, UPDATEd (with `onupdate` on `updated_at`) when
the diagnostic differs, INSERTed (defaults on both timestamps) when new. -/
def commitOne (old : List Link) (now : Nat) (kd : (Int × String) × Bool) : Link :=
  match lookupLink old kd.1 with
  | some l =>
    if l.diagnostic = kd.2 then l
    else { l with diagnostic := kd.2, updated_at := now }
  | none => ⟨kd.1.1, kd.1.2, kd.2, now, now⟩

def commitLinks (old : List Link) (staged : List ((Int × String) × Bool))
    (now : Nat) : List Link :=
  staged.map (commitOne old now)

def commitDB (db : DB) (st : Staged) (now : Nat) : DB :=
  ⟨st.businesses, st.symptoms, commitLinks db.links st.links now⟩

/-- Constraint check performed by the store on the rows the commit
actually writes (per the column declarations of `app/models.py`): column
lengths and foreign keys on new rows, and — since every staged link whose
key is absent from the store is its own pending INSERT — the composite
primary key of `business_symptoms`, which rejects two pending INSERTs
sharing a key (the duplicate-key failure the seen-set comment in
`app/views.py` guards businesses and symptoms against, but not links). -/
def checkCommit (db : DB) (st : Staged) : Bool :=
  st.businesses.all (fun kv =>
    decide (alook db.businesses kv.1 = some kv.2) || decide (kv.2.length ≤ 100)) &&
  st.symptoms.all (fun kv =>
    decide (alook db.symptoms kv.1 = some kv.2) ||
      (decide (kv.1.length ≤ 20) && decide (kv.2.length ≤ 100))) &&
  st.links.all (fun kd =>
    (lookupLink db.links kd.1).isSome ||
      (decide (kd.1.2.length ≤ 20) && decide (kd.1.1 ∈ akeys st.businesses) &&
        decide (kd.1.2 ∈ akeys st.symptoms))) &&
  decide ((akeys (st.links.filter
    (fun kd => (lookupLink db.links kd.1).isNone))).Nodup)

/-! ### The two endpoints (`app/views.py`) -/

/-- `POST /import-business-symptoms`: run the row loop, then commit all
staged changes in one transaction; on success return the row count. -/
def importBusinessSymptoms (db : DB) (inp : CSVInput) (now : Nat) :
    Except ImpErr (DB × Nat) :=
  match importLoop db.links inp.header inp.rows (initSt db) with
  | .error e => .error e
  | .ok st =>
    if checkCommit db st.staged then .ok (commitDB db st.staged now, st.count)
    else .error .importError

/-- The persisted store after an import attempt: a failed import commits
nothing (the session is rolled back when it is closed). -/
def persistedAfter (db : DB) (inp : CSVInput) (now : Nat) : DB :=
  match importBusinessSymptoms db inp now with
  | .ok (db', _) => db'
  | .error _ => db

/-- Whether an import attempt succeeds. -/
def importOk (db : DB) (inp : CSVInput) (now : Nat) : Bool :=
  match importBusinessSymptoms db inp now with
  | .ok _ => true
  | .error _ => false

/-- `rows_processed` reported by a successful import. -/
def importCount (db : DB) (inp : CSVInput) (now : Nat) : Nat :=
  match importBusinessSymptoms db inp now with
  | .ok (_, n) => n
  | .error _ => 0

/-- Response row of `GET /business-symptoms` (`BusinessSymptomOut`). -/
structure BusinessSymptomOut where
  business_id : Int
  business_name : String
  symptom_code : String
  symptom_name : String
  diagnostic : Bool
  deriving DecidableEq

inductive QErr where
  | notFound
  deriving DecidableEq

/-- The two optional `filter` clauses applied to a link row. -/
def linkMatches (bizId : Option Int) (diag : Option Bool) (l : Link) : Bool :=
  (match bizId with
   | some b => decide (l.business_id = b)
   | none => true) &&
  (match diag with
   | some d => decide (l.diagnostic = d)
   | none => true)

/-- The inner join of the link table with its two parent tables. -/
def joinOf (db : DB) (ls : List Link) : List (Link × String × String) :=
  ls.filterMap (fun l =>
    match alook db.businesses l.business_id, alook db.symptoms l.symptom_code with
    | some bn, some sn => some (l, bn, sn)
    | _, _ => none)

/-- Projection of a joined row to the response schema (the construction
of `BusinessSymptomOut` in the list comprehension). -/
def projT (t : Link × String × String) : BusinessSymptomOut :=
  ⟨t.1.business_id, t.2.1, t.1.symptom_code, t.2.2, t.1.diagnostic⟩

/-- `GET /business-symptoms`: join, apply the optional filters, 404 when
nothing matches, otherwise project to the response schema. -/
def readBusinessSymptoms (db : DB) (bizId : Option Int) (diag : Option Bool) :
    Except QErr (List BusinessSymptomOut) :=
  let filtered := (joinOf db db.links).filter (fun t => linkMatches bizId diag t.1)
  if filtered.isEmpty then .error .notFound
  else .ok (filtered.map projT)

/-! ### Loop decomposition lemmas -/

theorem importLoop_ok_of_parseAll {old : List Link} {header : List String} :
    ∀ {rows : List (List String)} {P : List ParsedRow} (st : LoopSt),
      parseAll header rows = some P →
      importLoop old header rows st = .ok (runP old P st)
  | [], P, st, h => by
    simp [parseAll] at h
    subst h
    rfl
  | r :: rest, P, st, h => by
    unfold parseAll at h
    cases hp : parseRow header r with
    | none => rw [hp] at h; exact absurd h (by simp)
    | some p =>
      rw [hp] at h
      cases ht : parseAll header rest with
      | none => rw [ht] at h; exact absurd h (by simp)
      | some tl =>
        rw [ht] at h
        obtain rfl : p :: tl = P := by simpa using h
        simp only [importLoop, hp]
        rw [importLoop_ok_of_parseAll (stepRow old st p) ht]
        rfl

theorem importLoop_err_of_parseAll_none {old : List Link} {header : List String} :
    ∀ {rows : List (List String)} (st : LoopSt),
      parseAll header rows = none →
      importLoop old header rows st = .error .validationError
  | [], _, h => by simp [parseAll] at h
  | r :: rest, st, h => by
    unfold parseAll at h
    cases hp : parseRow header r with
    | none => rw [importLoop, hp]
    | some p =>
      rw [hp] at h
      cases ht : parseAll header rest with
      | none =>
        rw [importLoop, hp]
        exact importLoop_err_of_parseAll_none (stepRow old st p) ht
      | some tl => rw [ht] at h; exact absurd h (by simp)

theorem parseAll_none_of_mem {header : List String} :
    ∀ {rows : List (List String)} {r : List String},
      r ∈ rows → parseRow header r = none → parseAll header rows = none
  | [], _, hm, _ => absurd hm (by simp)
  | r' :: rest, r, hm, hp => by
    rcases List.mem_cons.mp hm with rfl | hm'
    · rw [parseAll, hp]
    · rw [parseAll]
      cases hp' : parseRow header r' with
      | none => rfl
      | some _ => rw [parseAll_none_of_mem hm' hp]

/-! ### Characterizations of the three per-table folds -/

/-- First row of a parsed batch carrying a given business id. -/
def ffindB : List ParsedRow → Int → Option ParsedRow
  | [], _ => none
  | p :: t, k => if p.bizId = k then some p else ffindB t k

/-- First row of a parsed batch carrying a given symptom code. -/
def ffindS : List ParsedRow → String → Option ParsedRow
  | [], _ => none
  | p :: t, k => if p.symCode = k then some p else ffindS t k

/-- Last row of a parsed batch carrying a given link key. -/
def findLast : List ParsedRow → Int × String → Option ParsedRow
  | [], _ => none
  | p :: t, k =>
    match findLast t k with
    | some q => some q
    | none => if (p.bizId, p.symCode) = k then some p else none

theorem foldB_lookup : ∀ (P : List ParsedRow) (s : List Int)
    (b : List (Int × String)) (k : Int),
    alook (P.foldl stepB (s, b)).2 k =
      if k ∈ s then alook b k
      else
        match ffindB P k with
        | some p => some p.bizName
        | none => alook b k
  | [], s, b, k => by
    by_cases hk : k ∈ s <;> simp [ffindB, hk]
  | p :: t, s, b, k => by
    rw [List.foldl_cons]
    by_cases hmem : p.bizId ∈ s
    · rw [show stepB (s, b) p = (s, b) by simp [stepB, hmem]]
      rw [foldB_lookup t s b k]
      by_cases hk : k ∈ s
      · simp [hk]
      · have hpk : p.bizId ≠ k := fun e => hk (e ▸ hmem)
        simp [hk, ffindB, hpk]
    · rw [show stepB (s, b) p =
          (p.bizId :: s, aupsert p.bizId p.bizName b) by simp [stepB, hmem]]
      rw [foldB_lookup t (p.bizId :: s) (aupsert p.bizId p.bizName b) k]
      by_cases hk : k = p.bizId
      · have hin : k ∈ p.bizId :: s := by rw [hk]; exact List.mem_cons_self _ _
        have hks : k ∉ s := by rw [hk]; exact hmem
        have hfind : ffindB (p :: t) k = some p := by simp [ffindB, hk.symm]
        rw [if_pos hin, if_neg hks, hfind, alook_aupsert, if_pos hk]
      · have hks : k ∈ p.bizId :: s ↔ k ∈ s := by
          simp [List.mem_cons, hk]
        by_cases hk2 : k ∈ s
        · simp [hks.mpr hk2, hk2, alook_aupsert, hk]
        · have hnin : k ∉ p.bizId :: s := fun h => hk2 (hks.mp h)
          have hpk : p.bizId ≠ k := fun e => hk e.symm
          simp [hnin, hk2, ffindB, hpk, alook_aupsert, hk]

theorem foldS_lookup : ∀ (P : List ParsedRow) (s : List String)
    (b : List (String × String)) (k : String),
    alook (P.foldl stepS (s, b)).2 k =
      if k ∈ s then alook b k
      else
        match ffindS P k with
        | some p => some p.symName
        | none => alook b k
  | [], s, b, k => by
    by_cases hk : k ∈ s <;> simp [ffindS, hk]
  | p :: t, s, b, k => by
    rw [List.foldl_cons]
    by_cases hmem : p.symCode ∈ s
    · rw [show stepS (s, b) p = (s, b) by simp [stepS, hmem]]
      rw [foldS_lookup t s b k]
      by_cases hk : k ∈ s
      · simp [hk]
      · have hpk : p.symCode ≠ k := fun e => hk (e ▸ hmem)
        simp [hk, ffindS, hpk]
    · rw [show stepS (s, b) p =
          (p.symCode :: s, aupsert p.symCode p.symName b) by simp [stepS, hmem]]
      rw [foldS_lookup t (p.symCode :: s) (aupsert p.symCode p.symName b) k]
      by_cases hk : k = p.symCode
      · have hin : k ∈ p.symCode :: s := by rw [hk]; exact List.mem_cons_self _ _
        have hks : k ∉ s := by rw [hk]; exact hmem
        have hfind : ffindS (p :: t) k = some p := by simp [ffindS, hk.symm]
        rw [if_pos hin, if_neg hks, hfind, alook_aupsert, if_pos hk]
      · have hks : k ∈ p.symCode :: s ↔ k ∈ s := by
          simp [List.mem_cons, hk]
        by_cases hk2 : k ∈ s
        · simp [hks.mpr hk2, hk2, alook_aupsert, hk]
        · have hnin : k ∉ p.symCode :: s := fun h => hk2 (hks.mp h)
          have hpk : p.symCode ≠ k := fun e => hk e.symm
          simp [hnin, hk2, ffindS, hpk, alook_aupsert, hk]

/-- Specialization of the link merge to a plain keyed upsert, which is
what `stepL old` performs on every row whose composite key is already in
the store; used to reason about re-imports, where that covers the whole
batch. -/
def stepLU (l : List ((Int × String) × Bool)) (p : ParsedRow) :
    List ((Int × String) × Bool) :=
  aupsert (p.bizId, p.symCode) p.diag l

theorem stepL_eq_stepLU {old : List Link} {p : ParsedRow}
    (h : (lookupLink old (p.bizId, p.symCode)).isSome)
    (l : List ((Int × String) × Bool)) : stepL old l p = stepLU l p := by
  unfold stepL stepLU
  rw [if_pos h]

theorem foldL_eq_foldLU {old : List Link} : ∀ {P : List ParsedRow}
    (l : List ((Int × String) × Bool)),
    (∀ p ∈ P, (lookupLink old (p.bizId, p.symCode)).isSome) →
    P.foldl (stepL old) l = P.foldl stepLU l
  | [], _, _ => rfl
  | p :: t, l, h => by
    rw [List.foldl_cons, List.foldl_cons,
      stepL_eq_stepLU (h p (List.mem_cons_self _ _)) l]
    exact foldL_eq_foldLU (stepLU l p) (fun q hq => h q (List.mem_cons_of_mem _ hq))

theorem foldLU_lookup : ∀ (P : List ParsedRow)
    (l : List ((Int × String) × Bool)) (k : Int × String),
    alook (P.foldl stepLU l) k =
      match findLast P k with
      | some p => some p.diag
      | none => alook l k
  | [], l, k => by simp [findLast]
  | p :: t, l, k => by
    rw [List.foldl_cons, foldLU_lookup t _ k]
    cases hf : findLast t k with
    | some q => simp [findLast, hf]
    | none =>
      by_cases hk : (p.bizId, p.symCode) = k
      · simp [findLast, hf, hk, stepLU, alook_aupsert]
      · have hk' : k ≠ (p.bizId, p.symCode) := fun e => hk e.symm
        simp [findLast, hf, hk, stepLU, alook_aupsert, hk']

/-! ### Component decomposition of the loop -/

theorem runP_businesses (old : List Link) : ∀ (P : List ParsedRow) (st : LoopSt),
    ((runP old P st).seenB, (runP old P st).staged.businesses) =
      P.foldl stepB (st.seenB, st.staged.businesses)
  | [], _ => rfl
  | p :: t, st => by
    rw [runP, List.foldl_cons, List.foldl_cons, ← runP,
      runP_businesses old t (stepRow old st p)]
    rfl

theorem runP_symptoms (old : List Link) : ∀ (P : List ParsedRow) (st : LoopSt),
    ((runP old P st).seenS, (runP old P st).staged.symptoms) =
      P.foldl stepS (st.seenS, st.staged.symptoms)
  | [], _ => rfl
  | p :: t, st => by
    rw [runP, List.foldl_cons, List.foldl_cons, ← runP,
      runP_symptoms old t (stepRow old st p)]
    rfl

theorem runP_links (old : List Link) : ∀ (P : List ParsedRow) (st : LoopSt),
    (runP old P st).staged.links = P.foldl (stepL old) st.staged.links
  | [], _ => rfl
  | p :: t, st => by
    rw [runP, List.foldl_cons, List.foldl_cons, ← runP,
      runP_links old t (stepRow old st p)]
    rfl

theorem runP_count (old : List Link) : ∀ (P : List ParsedRow) (st : LoopSt),
    (runP old P st).count = st.count + P.length
  | [], st => by simp [runP]
  | p :: t, st => by
    rw [runP, List.foldl_cons, ← runP, runP_count old t (stepRow old st p)]
    simp [stepRow]
    omega

/-! ### No-op lemmas: re-running a batch over its own result -/

theorem foldB_noop : ∀ (P : List ParsedRow) (s : List Int)
    (b : List (Int × String)),
    (∀ k p, ffindB P k = some p → k ∉ s → alook b k = some p.bizName) →
    (P.foldl stepB (s, b)).2 = b
  | [], _, _, _ => rfl
  | p :: t, s, b, h => by
    rw [List.foldl_cons]
    by_cases hmem : p.bizId ∈ s
    · rw [show stepB (s, b) p = (s, b) by simp [stepB, hmem]]
      refine foldB_noop t s b (fun k q hq hks => ?_)
      have hpk : p.bizId ≠ k := fun e => hks (e ▸ hmem)
      exact h k q (by simp [ffindB, hpk, hq]) hks
    · have hself : alook b p.bizId = some p.bizName :=
        h p.bizId p (by simp [ffindB]) hmem
      rw [show stepB (s, b) p =
          (p.bizId :: s, aupsert p.bizId p.bizName b) by simp [stepB, hmem],
        aupsert_self hself]
      refine foldB_noop t (p.bizId :: s) b (fun k q hq hks => ?_)
      have hk : p.bizId ≠ k := fun e => hks (e ▸ List.mem_cons_self _ _)
      exact h k q (by simp [ffindB, hk, hq]) (fun hin => hks (List.mem_cons_of_mem _ hin))

theorem foldS_noop : ∀ (P : List ParsedRow) (s : List String)
    (b : List (String × String)),
    (∀ k p, ffindS P k = some p → k ∉ s → alook b k = some p.symName) →
    (P.foldl stepS (s, b)).2 = b
  | [], _, _, _ => rfl
  | p :: t, s, b, h => by
    rw [List.foldl_cons]
    by_cases hmem : p.symCode ∈ s
    · rw [show stepS (s, b) p = (s, b) by simp [stepS, hmem]]
      refine foldS_noop t s b (fun k q hq hks => ?_)
      have hpk : p.symCode ≠ k := fun e => hks (e ▸ hmem)
      exact h k q (by simp [ffindS, hpk, hq]) hks
    · have hself : alook b p.symCode = some p.symName :=
        h p.symCode p (by simp [ffindS]) hmem
      rw [show stepS (s, b) p =
          (p.symCode :: s, aupsert p.symCode p.symName b) by simp [stepS, hmem],
        aupsert_self hself]
      refine foldS_noop t (p.symCode :: s) b (fun k q hq hks => ?_)
      have hk : p.symCode ≠ k := fun e => hks (e ▸ List.mem_cons_self _ _)
      exact h k q (by simp [ffindS, hk, hq]) (fun hin => hks (List.mem_cons_of_mem _ hin))

/-! ### Key-set facts about the folds -/

theorem akeys_foldLU_of_mem : ∀ (P : List ParsedRow)
    (l : List ((Int × String) × Bool)),
    (∀ p ∈ P, (p.bizId, p.symCode) ∈ akeys l) →
    akeys (P.foldl stepLU l) = akeys l
  | [], _, _ => rfl
  | p :: t, l, h => by
    rw [List.foldl_cons]
    have hk : akeys (stepLU l p) = akeys l :=
      akeys_aupsert_of_mem _ (h p (List.mem_cons_self _ _))
    rw [akeys_foldLU_of_mem t (stepLU l p)
      (fun q hq => hk ▸ h q (List.mem_cons_of_mem _ hq)), hk]

theorem nodup_akeys_foldB : ∀ (P : List ParsedRow)
    {s : List Int} {b : List (Int × String)},
    (akeys b).Nodup → (akeys (P.foldl stepB (s, b)).2).Nodup
  | [], _, _, h => h
  | p :: t, s, b, h => by
    rw [List.foldl_cons]
    by_cases hmem : p.bizId ∈ s
    · rw [show stepB (s, b) p = (s, b) by simp [stepB, hmem]]
      exact nodup_akeys_foldB t h
    · rw [show stepB (s, b) p =
        (p.bizId :: s, aupsert p.bizId p.bizName b) by simp [stepB, hmem]]
      exact nodup_akeys_foldB t (nodup_akeys_aupsert h)

theorem nodup_akeys_foldS : ∀ (P : List ParsedRow)
    {s : List String} {b : List (String × String)},
    (akeys b).Nodup → (akeys (P.foldl stepS (s, b)).2).Nodup
  | [], _, _, h => h
  | p :: t, s, b, h => by
    rw [List.foldl_cons]
    by_cases hmem : p.symCode ∈ s
    · rw [show stepS (s, b) p = (s, b) by simp [stepS, hmem]]
      exact nodup_akeys_foldS t h
    · rw [show stepS (s, b) p =
        (p.symCode :: s, aupsert p.symCode p.symName b) by simp [stepS, hmem]]
      exact nodup_akeys_foldS t (nodup_akeys_aupsert h)

theorem isNone_eq_false {γ : Type} {o : Option γ} (h : o.isSome) :
    o.isNone = false := by
  cases o with
  | none => simp at h
  | some _ => rfl

theorem isNone_eq_true {γ : Type} {o : Option γ} (h : ¬ o.isSome = true) :
    o.isNone = true := by
  cases o with
  | none => rfl
  | some _ => simp at h

/-! ### The mixed link fold: loaded upserts and pending INSERTs -/

/-- First row of a parsed batch carrying a given link key. -/
def ffindL : List ParsedRow → Int × String → Option ParsedRow
  | [], _ => none
  | p :: t, k => if (p.bizId, p.symCode) = k then some p else ffindL t k

theorem alook_append_some {l l₂ : List (α × β)} {k : α} {v : β}
    (h : alook l k = some v) : alook (l ++ l₂) k = some v := by
  induction l with
  | nil => simp [alook] at h
  | cons q t ih =>
    obtain ⟨a, b⟩ := q
    by_cases hak : a = k
    · simp [alook, hak] at h ⊢
      exact h
    · simp [alook, hak] at h ⊢
      exact ih h

theorem alook_append_none {l l₂ : List (α × β)} {k : α}
    (h : alook l k = none) : alook (l ++ l₂) k = alook l₂ k := by
  induction l with
  | nil => rfl
  | cons q t ih =>
    obtain ⟨a, b⟩ := q
    by_cases hak : a = k
    · simp [alook, hak] at h
    · simp [alook, hak] at h ⊢
      exact ih h

/-- Lookup of a key that is persisted: the pending appends never carry it,
so the staged value is the one of the LAST occurrence in the batch. -/
theorem foldL_lookup_mem {old : List Link} {k : Int × String}
    (hk : (lookupLink old k).isSome) : ∀ (P : List ParsedRow)
    (l : List ((Int × String) × Bool)),
    alook (P.foldl (stepL old) l) k =
      match findLast P k with
      | some p => some p.diag
      | none => alook l k
  | [], l => by simp [findLast]
  | p :: t, l => by
    rw [List.foldl_cons, foldL_lookup_mem hk t _]
    by_cases hpo : (lookupLink old (p.bizId, p.symCode)).isSome
    · rw [stepL_eq_stepLU hpo]
      cases hf : findLast t k with
      | some q => simp [findLast, hf]
      | none =>
        by_cases hpk : (p.bizId, p.symCode) = k
        · simp [findLast, hf, hpk, stepLU, alook_aupsert]
        · have hpk' : k ≠ (p.bizId, p.symCode) := fun e => hpk e.symm
          simp [findLast, hf, hpk, stepLU, alook_aupsert, hpk']
    · have hpk : (p.bizId, p.symCode) ≠ k := by
        intro e
        exact hpo (e ▸ hk)
      have hstep : stepL old l p = l ++ [((p.bizId, p.symCode), p.diag)] := by
        unfold stepL
        rw [if_neg hpo]
      cases hf : findLast t k with
      | some q => simp [findLast, hf]
      | none =>
        have hail : alook (l ++ [((p.bizId, p.symCode), p.diag)]) k =
            alook l k := by
          cases hal : alook l k with
          | some v => exact alook_append_some hal
          | none =>
            rw [alook_append_none hal]
            simp [alook, hpk]
        simp [findLast, hf, hpk, hstep, hail]

/-- A staged pending value for a key absent from the store is never
touched by later merges of the batch. -/
theorem foldL_lookup_frozen {old : List Link} {k : Int × String}
    (hk : lookupLink old k = none) : ∀ (P : List ParsedRow)
    {l : List ((Int × String) × Bool)} {v : Bool},
    alook l k = some v → alook (P.foldl (stepL old) l) k = some v
  | [], _, _, h => h
  | p :: t, l, v, h => by
    rw [List.foldl_cons]
    refine foldL_lookup_frozen hk t ?_
    by_cases hpo : (lookupLink old (p.bizId, p.symCode)).isSome
    · have hpk : k ≠ (p.bizId, p.symCode) := by
        intro e
        rw [← e, hk] at hpo
        exact absurd hpo (by simp)
      rw [stepL_eq_stepLU hpo]
      unfold stepLU
      rw [alook_aupsert, if_neg hpk]
      exact h
    · rw [show stepL old l p = l ++ [((p.bizId, p.symCode), p.diag)] by
        unfold stepL; rw [if_neg hpo]]
      exact alook_append_some h

/-- Lookup of a key absent from the store: every occurrence appends its
own pending INSERT, and the first-position pending is the one a lookup
sees — the FIRST occurrence of the key in the batch. -/
theorem foldL_lookup_new {old : List Link} {k : Int × String}
    (hk : lookupLink old k = none) : ∀ (P : List ParsedRow)
    {l : List ((Int × String) × Bool)}, alook l k = none →
    alook (P.foldl (stepL old) l) k =
      match ffindL P k with
      | some p => some p.diag
      | none => none
  | [], _, h => by simpa [ffindL] using h
  | p :: t, l, h => by
    rw [List.foldl_cons]
    by_cases hpk : (p.bizId, p.symCode) = k
    · have hpo : ¬ (lookupLink old (p.bizId, p.symCode)).isSome := by
        rw [hpk, hk]
        simp
      have hstep : stepL old l p = l ++ [((p.bizId, p.symCode), p.diag)] := by
        unfold stepL
        rw [if_neg hpo]
      have hal : alook (l ++ [((p.bizId, p.symCode), p.diag)]) k =
          some p.diag := by
        rw [alook_append_none h]
        simp [alook, hpk]
      rw [hstep, foldL_lookup_frozen hk t hal]
      simp [ffindL, hpk]
    · have hal : alook (stepL old l p) k = none := by
        by_cases hpo : (lookupLink old (p.bizId, p.symCode)).isSome
        · rw [stepL_eq_stepLU hpo]
          unfold stepLU
          rw [alook_aupsert, if_neg (fun e => hpk e.symm)]
          exact h
        · rw [show stepL old l p = l ++ [((p.bizId, p.symCode), p.diag)] by
            unfold stepL; rw [if_neg hpo]]
          rw [alook_append_none h]
          simp [alook, hpk]
      rw [foldL_lookup_new hk t hal]
      simp [ffindL, hpk]

theorem mem_linkKeys_of_isSome : ∀ {ls : List Link} {k : Int × String},
    (lookupLink ls k).isSome → k ∈ linkKeys ls
  | [], _, h => by simp [lookupLink] at h
  | l :: t, k, h => by
    by_cases hk : l.key = k
    · exact hk ▸ List.mem_cons_self _ _
    · rw [show linkKeys (l :: t) = l.key :: linkKeys t from rfl]
      simp [lookupLink, hk] at h
      exact List.mem_cons_of_mem _ (mem_linkKeys_of_isSome h)

theorem filter_pending_aupsert {old : List Link} {a : Int × String}
    (ha : (lookupLink old a).isSome) (v : Bool) :
    ∀ (l : List ((Int × String) × Bool)),
    (aupsert a v l).filter (fun kd => (lookupLink old kd.1).isNone) =
      l.filter (fun kd => (lookupLink old kd.1).isNone)
  | [] => by
    simp [aupsert, List.filter_cons, isNone_eq_false ha]
  | (x, y) :: t => by
    by_cases hxa : x = a
    · subst hxa
      simp [aupsert, List.filter_cons, isNone_eq_false ha]
    · simp [aupsert, hxa, List.filter_cons, filter_pending_aupsert ha v t]

/-- The pending INSERTs staged by a batch are exactly its rows whose link
key is absent from the store, in row order, one entry per occurrence. -/
theorem foldL_filter_pending {old : List Link} : ∀ (P : List ParsedRow)
    (l : List ((Int × String) × Bool)),
    (P.foldl (stepL old) l).filter (fun kd => (lookupLink old kd.1).isNone) =
      l.filter (fun kd => (lookupLink old kd.1).isNone) ++
        (P.filter (fun p =>
          (lookupLink old (p.bizId, p.symCode)).isNone)).map
          (fun p => ((p.bizId, p.symCode), p.diag))
  | [], l => by simp
  | p :: t, l => by
    rw [List.foldl_cons]
    by_cases hpo : (lookupLink old (p.bizId, p.symCode)).isSome
    · have hpn : ((lookupLink old (p.bizId, p.symCode)).isNone : Bool) = false :=
        isNone_eq_false hpo
      rw [stepL_eq_stepLU hpo]
      unfold stepLU
      rw [foldL_filter_pending t _, filter_pending_aupsert hpo]
      simp [List.filter_cons, hpn]
    · have hpn : ((lookupLink old (p.bizId, p.symCode)).isNone : Bool) = true :=
        isNone_eq_true hpo
      rw [show stepL old l p = l ++ [((p.bizId, p.symCode), p.diag)] by
        unfold stepL; rw [if_neg hpo]]
      rw [foldL_filter_pending t _, List.filter_append]
      simp [List.filter_cons, hpn]

/-- Key sequence of the staged links: the keys already present followed by
one key per pending INSERT. -/
theorem foldL_akeys {old : List Link} : ∀ (P : List ParsedRow)
    (l : List ((Int × String) × Bool)),
    (∀ k, k ∈ linkKeys old → k ∈ akeys l) →
    akeys (P.foldl (stepL old) l) =
      akeys l ++ (P.filter (fun p =>
        (lookupLink old (p.bizId, p.symCode)).isNone)).map
        (fun p => (p.bizId, p.symCode))
  | [], l, _ => by simp
  | p :: t, l, hsub => by
    rw [List.foldl_cons]
    by_cases hpo : (lookupLink old (p.bizId, p.symCode)).isSome
    · have hpn : ((lookupLink old (p.bizId, p.symCode)).isNone : Bool) = false :=
        isNone_eq_false hpo
      have hmem : (p.bizId, p.symCode) ∈ akeys l :=
        hsub _ (mem_linkKeys_of_isSome hpo)
      rw [stepL_eq_stepLU hpo]
      unfold stepLU
      rw [foldL_akeys t _ (fun k hk =>
          (akeys_aupsert_of_mem p.diag hmem).symm ▸ hsub k hk),
        akeys_aupsert_of_mem p.diag hmem]
      simp [List.filter_cons, hpn]
    · have hpn : ((lookupLink old (p.bizId, p.symCode)).isNone : Bool) = true :=
        isNone_eq_true hpo
      rw [show stepL old l p = l ++ [((p.bizId, p.symCode), p.diag)] by
        unfold stepL; rw [if_neg hpo]]
      rw [foldL_akeys t _ (fun k hk => by
        rw [show akeys (l ++ [((p.bizId, p.symCode), p.diag)]) =
          akeys l ++ [(p.bizId, p.symCode)] by simp [akeys]]
        exact List.mem_append_left _ (hsub k hk))]
      simp [List.filter_cons, hpn, akeys]

/-! ### Occurrence counting for duplicate pending keys -/

theorem filter_key_eq_nil_of_not_mem {k : Int × String} :
    ∀ {L : List ParsedRow},
    k ∉ L.map (fun p => (p.bizId, p.symCode)) →
    L.filter (fun p => decide ((p.bizId, p.symCode) = k)) = []
  | [], _ => rfl
  | p :: t, h => by
    rw [List.map_cons] at h
    have h1 : ¬ k = (p.bizId, p.symCode) := fun e =>
      h (e ▸ List.mem_cons_self _ _)
    have h2 : k ∉ t.map (fun p => (p.bizId, p.symCode)) := fun hm =>
      h (List.mem_cons_of_mem _ hm)
    rw [List.filter_cons, if_neg (by simpa using fun e => h1 e.symm)]
    exact filter_key_eq_nil_of_not_mem h2

/-- Distinct staged keys bound each key to at most one occurrence. -/
theorem length_filter_key_le_one {k : Int × String} : ∀ {L : List ParsedRow},
    (L.map (fun p => (p.bizId, p.symCode))).Nodup →
    (L.filter (fun p => decide ((p.bizId, p.symCode) = k))).length ≤ 1
  | [], _ => by simp
  | p :: t, h => by
    rw [List.map_cons, List.nodup_cons] at h
    rw [List.filter_cons]
    by_cases hpk : (p.bizId, p.symCode) = k
    · rw [if_pos (by simpa using hpk),
        filter_key_eq_nil_of_not_mem (hpk ▸ h.1)]
      simp
    · rw [if_neg (by simpa using hpk)]
      exact length_filter_key_le_one h.2

theorem findLast_eq_none_of_filter_nil {k : Int × String} :
    ∀ {t : List ParsedRow},
    t.filter (fun p => decide ((p.bizId, p.symCode) = k)) = [] →
    findLast t k = none
  | [], _ => rfl
  | p :: t, h => by
    rw [List.filter_cons] at h
    by_cases hpk : (p.bizId, p.symCode) = k
    · rw [if_pos (by simpa using hpk)] at h
      exact absurd h (by simp)
    · rw [if_neg (by simpa using hpk)] at h
      rw [findLast, findLast_eq_none_of_filter_nil h, if_neg hpk]

/-- When a key occurs at most once in the batch, its first and last
occurrences coincide. -/
theorem ffindL_eq_findLast {k : Int × String} : ∀ {P : List ParsedRow},
    (P.filter (fun p => decide ((p.bizId, p.symCode) = k))).length ≤ 1 →
    ffindL P k = findLast P k
  | [], _ => rfl
  | p :: t, h => by
    rw [List.filter_cons] at h
    by_cases hpk : (p.bizId, p.symCode) = k
    · rw [if_pos (by simpa using hpk)] at h
      have hnil : t.filter (fun p => decide ((p.bizId, p.symCode) = k)) = [] := by
        rw [List.length_cons] at h
        exact List.length_eq_zero.mp (by omega)
      rw [ffindL, if_pos hpk, findLast, findLast_eq_none_of_filter_nil hnil,
        if_pos hpk]
    · rw [if_neg (by simpa using hpk)] at h
      rw [ffindL, if_neg hpk, findLast, ffindL_eq_findLast h]
      cases findLast t k with
      | some q => rfl
      | none => rw [if_neg hpk]

/-- Occurrences of a store-absent key are occurrences among the pending
rows. -/
theorem filter_key_eq_filter_pending_key {old : List Link}
    {k : Int × String} (hk : lookupLink old k = none) :
    ∀ (P : List ParsedRow),
    (P.filter (fun p =>
        (lookupLink old (p.bizId, p.symCode)).isNone)).filter
      (fun p => decide ((p.bizId, p.symCode) = k)) =
    P.filter (fun p => decide ((p.bizId, p.symCode) = k))
  | [] => rfl
  | p :: t => by
    have ih := filter_key_eq_filter_pending_key hk t
    by_cases hpk : (p.bizId, p.symCode) = k
    · have hpn : ((lookupLink old (p.bizId, p.symCode)).isNone : Bool) = true := by
        rw [hpk, hk]
        rfl
      simp [List.filter_cons, hpn, hpk, hk, ih]
    · by_cases hpn : ((lookupLink old (p.bizId, p.symCode)).isNone : Bool) = true
      · simp [List.filter_cons, hpn, hpk, hk, ih]
      · simp [List.filter_cons, hpn, hpk, hk, ih]

/-! ### Link-table and commit lemmas -/

theorem lookupLink_key : ∀ {ls : List Link} {k : Int × String} {l : Link},
    lookupLink ls k = some l → l.key = k
  | [], _, _, h => by simp [lookupLink] at h
  | l' :: t, k, l, h => by
    by_cases hk : l'.key = k
    · simp [lookupLink, hk] at h
      exact h ▸ hk
    · simp [lookupLink, hk] at h
      exact lookupLink_key h

theorem alook_linkVals : ∀ (ls : List Link) (k : Int × String),
    alook (linkVals ls) k = (lookupLink ls k).map Link.diagnostic
  | [], _ => rfl
  | l :: t, k => by
    have ih := alook_linkVals t k
    by_cases hk : l.key = k
    · simp [linkVals, alook, lookupLink, hk]
    · have h1 : alook (linkVals (l :: t)) k = alook (linkVals t) k := by
        show alook ((l.key, l.diagnostic) :: linkVals t) k = _
        simp [alook, hk]
      have h2 : lookupLink (l :: t) k = lookupLink t k := by
        simp [lookupLink, hk]
      rw [h1, h2, ih]

theorem akeys_linkVals (ls : List Link) : akeys (linkVals ls) = linkKeys ls := by
  simp [linkVals, akeys, linkKeys]

theorem lookupLink_isSome_of_mem : ∀ {ls : List Link} {k : Int × String},
    k ∈ linkKeys ls → (lookupLink ls k).isSome
  | [], _, h => by simp [linkKeys] at h
  | l :: t, k, h => by
    by_cases hk : l.key = k
    · simp [lookupLink, hk]
    · have h' : k ∈ linkKeys t := by
        rcases List.mem_cons.mp (show k ∈ l.key :: linkKeys t from h) with e | hm
        · exact absurd e.symm hk
        · exact hm
      simpa [lookupLink, hk] using lookupLink_isSome_of_mem h'

theorem lookupLink_self_of_nodup : ∀ {ls : List Link} {l : Link},
    (linkKeys ls).Nodup → l ∈ ls → lookupLink ls l.key = some l
  | [], _, _, h => absurd h (by simp)
  | l' :: t, l, hnd, h => by
    rw [show linkKeys (l' :: t) = l'.key :: linkKeys t from rfl,
      List.nodup_cons] at hnd
    rcases List.mem_cons.mp h with rfl | hmem
    · simp [lookupLink]
    · have hk : l'.key ≠ l.key := by
        intro e
        exact hnd.1 (e ▸ List.mem_map_of_mem Link.key hmem)
      simp [lookupLink, hk, lookupLink_self_of_nodup hnd.2 hmem]

theorem commitOne_key (old : List Link) (now : Nat) (kd : (Int × String) × Bool) :
    (commitOne old now kd).key = kd.1 := by
  unfold commitOne
  cases h : lookupLink old kd.1 with
  | none => rfl
  | some l =>
    have := lookupLink_key h
    by_cases hd : l.diagnostic = kd.2 <;> simp [hd, Link.key] at this ⊢ <;>
      simp [this, Link.key]

theorem commitOne_diag (old : List Link) (now : Nat) (kd : (Int × String) × Bool) :
    (commitOne old now kd).diagnostic = kd.2 := by
  unfold commitOne
  cases h : lookupLink old kd.1 with
  | none => rfl
  | some l => by_cases hd : l.diagnostic = kd.2 <;> simp [hd]

theorem linkVals_commitLinks (old : List Link) (now : Nat) :
    ∀ (st : List ((Int × String) × Bool)),
    linkVals (commitLinks old st now) = st
  | [] => rfl
  | kd :: t => by
    have ih := linkVals_commitLinks old now t
    simp only [commitLinks, List.map_cons, linkVals] at ih ⊢
    rw [ih]
    rw [commitOne_key, commitOne_diag]

theorem linkKeys_commitLinks (old : List Link) (now : Nat)
    (st : List ((Int × String) × Bool)) :
    linkKeys (commitLinks old st now) = akeys st := by
  have := congrArg akeys (linkVals_commitLinks old now st)
  rwa [akeys_linkVals] at this

theorem lookupLink_commitLinks (old : List Link) (now : Nat) :
    ∀ (st : List ((Int × String) × Bool)) (k : Int × String),
    lookupLink (commitLinks old st now) k =
      (alook st k).map (fun d => commitOne old now (k, d))
  | [], _ => rfl
  | kd :: t, k => by
    by_cases hk : kd.1 = k
    · simp only [commitLinks, List.map_cons, lookupLink, commitOne_key, hk,
        if_pos rfl]
      obtain ⟨k1, d⟩ := kd
      simp at hk
      subst hk
      simp [alook]
    · obtain ⟨k1, d⟩ := kd
      simp at hk
      simp only [commitLinks, List.map_cons, lookupLink, commitOne_key]
      rw [if_neg (by simpa using hk)]
      simpa [alook, hk] using lookupLink_commitLinks old now t k

theorem commitLinks_self {old : List Link} (now : Nat)
    (hnd : (linkKeys old).Nodup) :
    commitLinks old (linkVals old) now = old := by
  unfold commitLinks linkVals
  rw [List.map_map]
  refine List.map_congr_left (fun l hl => ?_) |>.trans (List.map_id old)
  show commitOne old now (l.key, l.diagnostic) = l
  unfold commitOne
  rw [lookupLink_self_of_nodup hnd hl]
  simp

/-! ### Closed form of a parsed import -/

/-- The staged session content after the loop has processed batch `P`. -/
def stagedOf (db : DB) (P : List ParsedRow) : Staged :=
  ⟨(P.foldl stepB ([], db.businesses)).2,
    (P.foldl stepS ([], db.symptoms)).2,
    P.foldl (stepL db.links) (linkVals db.links)⟩

theorem runP_staged_initSt (db : DB) (P : List ParsedRow) :
    (runP db.links P (initSt db)).staged = stagedOf db P := by
  have hb : (runP db.links P (initSt db)).staged.businesses =
      (P.foldl stepB ([], db.businesses)).2 := by
    simpa [initSt, initStaged] using
      congrArg Prod.snd (runP_businesses db.links P (initSt db))
  have hs : (runP db.links P (initSt db)).staged.symptoms =
      (P.foldl stepS ([], db.symptoms)).2 := by
    simpa [initSt, initStaged] using
      congrArg Prod.snd (runP_symptoms db.links P (initSt db))
  have hl : (runP db.links P (initSt db)).staged.links =
      P.foldl (stepL db.links) (linkVals db.links) := by
    simpa [initSt, initStaged] using runP_links db.links P (initSt db)
  calc (runP db.links P (initSt db)).staged
      = ⟨(runP db.links P (initSt db)).staged.businesses,
          (runP db.links P (initSt db)).staged.symptoms,
          (runP db.links P (initSt db)).staged.links⟩ := rfl
    _ = stagedOf db P := by
        rw [stagedOf, hb, hs, hl]

theorem import_eq_of_parseAll {db : DB} {inp : CSVInput} {now : Nat}
    {P : List ParsedRow} (h : parseAll inp.header inp.rows = some P) :
    importBusinessSymptoms db inp now =
      if checkCommit db (stagedOf db P) then
        .ok (commitDB db (stagedOf db P) now, P.length)
      else .error .importError := by
  unfold importBusinessSymptoms
  rw [importLoop_ok_of_parseAll (initSt db) h]
  have hc : (runP db.links P (initSt db)).count = P.length := by
    rw [runP_count]
    simp [initSt]
  show (if checkCommit db (runP db.links P (initSt db)).staged then
      (Except.ok (commitDB db (runP db.links P (initSt db)).staged now,
        (runP db.links P (initSt db)).count) : Except ImpErr (DB × Nat))
    else .error .importError) = _
  rw [runP_staged_initSt, hc]

theorem import_validationError_of_parseAll_none {db : DB} {inp : CSVInput}
    {now : Nat} (h : parseAll inp.header inp.rows = none) :
    importBusinessSymptoms db inp now = .error .validationError := by
  unfold importBusinessSymptoms
  rw [importLoop_err_of_parseAll_none (initSt db) h]

/-! ### Parsing and query helper lemmas -/

theorem mem_akeys_of_alook {k : α} {v : β} {l : List (α × β)}
    (h : alook l k = some v) : k ∈ akeys l := by
  by_contra hk
  rw [alook_eq_none_of_not_mem hk] at h
  exact absurd h (by simp)

theorem getCol_none_of_not_mem {header vals : List String} {c : String}
    (h : c ∉ header) : getCol header vals c = none := by
  unfold getCol
  refine alook_eq_none_of_not_mem (fun hm => h ?_)
  unfold akeys at hm
  rw [List.map_reverse, List.mem_reverse] at hm
  obtain ⟨⟨a, b⟩, hab, rfl⟩ := List.mem_map.mp hm
  exact (List.of_mem_zip hab).1

theorem parseRow_cols_isSome {header vals : List String} {p : ParsedRow}
    (h : parseRow header vals = some p) :
    ∀ c ∈ expectedCols, (getCol header vals c).isSome := by
  intro c hc
  cases h1 : getCol header vals "Business ID" with
  | none => simp [parseRow, h1] at h
  | some s1 =>
  cases h2 : parseInt s1 with
  | none => simp [parseRow, h1, h2] at h
  | some i =>
  cases h3 : getCol header vals "Business Name" with
  | none => simp [parseRow, h1, h2, h3] at h
  | some s3 =>
  cases h4 : getCol header vals "Symptom Code" with
  | none => simp [parseRow, h1, h2, h3, h4] at h
  | some s4 =>
  cases h5 : getCol header vals "Symptom Name" with
  | none => simp [parseRow, h1, h2, h3, h4, h5] at h
  | some s5 =>
  cases h6 : getCol header vals "Symptom Diagnostic" with
  | none => simp [parseRow, h1, h2, h3, h4, h5, h6] at h
  | some s6 =>
  simp [expectedCols] at hc
  rcases hc with rfl | rfl | rfl | rfl | rfl <;>
    simp [h1, h3, h4, h5, h6]

theorem parseRow_none_of_badInt {header vals : List String} {s : String}
    (h1 : getCol header vals "Business ID" = some s)
    (h2 : parseInt s = none) : parseRow header vals = none := by
  simp [parseRow, h1, h2]

theorem parseRow_none_of_missing_col {header vals : List String} {c : String}
    (hc : c ∈ expectedCols) (h : c ∉ header) : parseRow header vals = none := by
  cases hp : parseRow header vals with
  | none => rfl
  | some p =>
    have := parseRow_cols_isSome hp c hc
    rw [getCol_none_of_not_mem h] at this
    exact absurd this (by simp)

/-- A successful read returns exactly the projected filtered join. -/
theorem read_ok_eq {db : DB} {bizId : Option Int} {diag : Option Bool}
    {res : List BusinessSymptomOut}
    (h : readBusinessSymptoms db bizId diag = .ok res) :
    res = ((joinOf db db.links).filter
      (fun t => linkMatches bizId diag t.1)).map projT := by
  unfold readBusinessSymptoms at h
  by_cases hemp :
      ((joinOf db db.links).filter (fun t => linkMatches bizId diag t.1)).isEmpty
  · rw [if_pos hemp] at h
    exact absurd h (by simp)
  · rw [if_neg hemp] at h
    exact (Except.ok.inj h).symm

/-- Under referential integrity the join keeps every link row, enriching
it with the parent names. -/
theorem joinOf_eq_map {db : DB} : ∀ {ls : List Link},
    (∀ l ∈ ls, (alook db.businesses l.business_id).isSome ∧
      (alook db.symptoms l.symptom_code).isSome) →
    joinOf db ls = ls.map (fun l =>
      (l, (alook db.businesses l.business_id).getD "",
        (alook db.symptoms l.symptom_code).getD ""))
  | [], _ => rfl
  | l :: t, h => by
    obtain ⟨hb, hs⟩ := h l (List.mem_cons_self _ _)
    obtain ⟨bn, hbn⟩ := Option.isSome_iff_exists.mp hb
    obtain ⟨sn, hsn⟩ := Option.isSome_iff_exists.mp hs
    have ih := joinOf_eq_map (fun l' hl' => h l' (List.mem_cons_of_mem _ hl'))
    simp only [joinOf, List.filterMap_cons, List.map_cons] at ih ⊢
    rw [hbn, hsn, ih]
    simp [hbn, hsn]

/-- Filtering commutes with the enriching map, since the filter predicate
only inspects the link component. -/
theorem filter_enrich_comm {bizId : Option Int} {diag : Option Bool}
    (f : Link → String × String) : ∀ (ls : List Link),
    ((ls.map (fun l => (l, f l))).filter
        (fun t => linkMatches bizId diag t.1)).map projT =
      (ls.filter (linkMatches bizId diag)).map (fun l => projT (l, f l))
  | [] => rfl
  | l :: t => by
    by_cases hm : linkMatches bizId diag l <;>
      simp [List.filter_cons, hm, filter_enrich_comm f t]

/-! ### Success-path helpers -/

theorem import_ok_parseAll {db : DB} {inp : CSVInput} {now : Nat}
    (hok : importOk db inp now = true) :
    ∃ P, parseAll inp.header inp.rows = some P := by
  cases hP : parseAll inp.header inp.rows with
  | none =>
    unfold importOk at hok
    rw [import_validationError_of_parseAll_none hP] at hok
    exact absurd hok (by simp)
  | some P => exact ⟨P, rfl⟩

theorem import_ok_components {db : DB} {inp : CSVInput} {now : Nat}
    {P : List ParsedRow} (hP : parseAll inp.header inp.rows = some P)
    (hok : importOk db inp now = true) :
    checkCommit db (stagedOf db P) = true ∧
    importBusinessSymptoms db inp now =
      .ok (commitDB db (stagedOf db P) now, P.length) ∧
    persistedAfter db inp now = commitDB db (stagedOf db P) now := by
  by_cases hchk : checkCommit db (stagedOf db P)
  · have himp : importBusinessSymptoms db inp now =
        .ok (commitDB db (stagedOf db P) now, P.length) := by
      rw [import_eq_of_parseAll hP, if_pos hchk]
    refine ⟨hchk, himp, ?_⟩
    unfold persistedAfter
    rw [himp]
  · unfold importOk at hok
    rw [import_eq_of_parseAll hP, if_neg hchk] at hok
    exact absurd hok (by simp)

theorem parseAll_length {header : List String} :
    ∀ {rows : List (List String)} {P : List ParsedRow},
      parseAll header rows = some P → P.length = rows.length
  | [], P, h => by simp [parseAll] at h; simp [← h]
  | r :: t, P, h => by
    unfold parseAll at h
    cases hp : parseRow header r with
    | none => rw [hp] at h; exact absurd h (by simp)
    | some p =>
      rw [hp] at h
      cases ht : parseAll header t with
      | none => rw [ht] at h; exact absurd h (by simp)
      | some tl =>
        rw [ht] at h
        obtain rfl : p :: tl = P := by simpa using h
        simpa using parseAll_length ht

theorem joinOf_fst_mem {db : DB} : ∀ {ls : List Link}
    {t : Link × String × String}, t ∈ joinOf db ls → t.1 ∈ ls := by
  intro ls t ht
  obtain ⟨l, hl, he⟩ := List.mem_filterMap.mp ht
  cases hb : alook db.businesses l.business_id with
  | none => rw [hb] at he; simp at he
  | some bn =>
    cases hs : alook db.symptoms l.symptom_code with
    | none => rw [hb, hs] at he; simp at he
    | some sn =>
      rw [hb, hs] at he
      obtain rfl : (l, bn, sn) = t := by simpa using he
      exact hl

/-- Commit of an unchanged session leaves the store untouched. -/
theorem commitDB_self {db : DB} (now : Nat) (hnd : (linkKeys db.links).Nodup) :
    commitDB db (initStaged db) now = db := by
  unfold commitDB initStaged
  rw [commitLinks_self now hnd]

/-- A session that mirrors the persisted link table stages no pending
INSERT. -/
theorem filter_pending_linkVals (ls : List Link) :
    (linkVals ls).filter (fun kd => (lookupLink ls kd.1).isNone) = [] := by
  rw [List.filter_eq_nil_iff]
  intro kd hkd
  have hmem : kd.1 ∈ linkKeys ls := by
    rw [← akeys_linkVals]
    exact List.mem_map_of_mem Prod.fst hkd
  simp [isNone_eq_false (lookupLink_isSome_of_mem hmem)]

theorem checkCommit_self (db : DB) (hwf : db.Wellformed) :
    checkCommit db (initStaged db) = true := by
  obtain ⟨hb, hs, hl⟩ := hwf
  unfold checkCommit initStaged
  rw [Bool.and_eq_true, Bool.and_eq_true, Bool.and_eq_true]
  refine ⟨⟨⟨?_, ?_⟩, ?_⟩, ?_⟩
  · rw [List.all_eq_true]
    intro kv hkv
    have h : alook db.businesses kv.1 = some kv.2 :=
      alook_self_of_nodup hb (by simpa using hkv)
    simp [h]
  · rw [List.all_eq_true]
    intro kv hkv
    have h : alook db.symptoms kv.1 = some kv.2 :=
      alook_self_of_nodup hs (by simpa using hkv)
    simp [h]
  · rw [List.all_eq_true]
    intro kd hkd
    have hmem : kd.1 ∈ linkKeys db.links := by
      rw [← akeys_linkVals]
      exact List.mem_map_of_mem Prod.fst (by simpa using hkd)
    simp [lookupLink_isSome_of_mem hmem]
  · show decide ((akeys ((linkVals db.links).filter
        (fun kd => (lookupLink db.links kd.1).isNone))).Nodup) = true
    rw [filter_pending_linkVals]
    simp [akeys]

/-- The pending INSERTs staged by batch `P` against store `db`, one entry
per row whose link key is not yet persisted. -/
theorem stagedOf_filter_pending (db : DB) (P : List ParsedRow) :
    (stagedOf db P).links.filter
      (fun kd => (lookupLink db.links kd.1).isNone) =
      (P.filter (fun p =>
        (lookupLink db.links (p.bizId, p.symCode)).isNone)).map
        (fun p => ((p.bizId, p.symCode), p.diag)) := by
  show (P.foldl (stepL db.links) (linkVals db.links)).filter _ = _
  rw [foldL_filter_pending, filter_pending_linkVals]
  rfl

/-- A passed commit check means no two pending INSERTs share a composite
key. -/
theorem check_pending_nodup {db : DB} {P : List ParsedRow}
    (hchk : checkCommit db (stagedOf db P) = true) :
    ((P.filter (fun p =>
      (lookupLink db.links (p.bizId, p.symCode)).isNone)).map
      (fun p => (p.bizId, p.symCode))).Nodup := by
  have hnd : (akeys ((stagedOf db P).links.filter
      (fun kd => (lookupLink db.links kd.1).isNone))).Nodup := by
    unfold checkCommit at hchk
    rw [Bool.and_eq_true, Bool.and_eq_true, Bool.and_eq_true] at hchk
    exact of_decide_eq_true hchk.2
  rw [stagedOf_filter_pending] at hnd
  have hak : akeys ((P.filter (fun p =>
      (lookupLink db.links (p.bizId, p.symCode)).isNone)).map
      (fun p => ((p.bizId, p.symCode), p.diag))) =
      (P.filter (fun p =>
        (lookupLink db.links (p.bizId, p.symCode)).isNone)).map
        (fun p => (p.bizId, p.symCode)) := by
    simp [akeys, Function.comp]
  rwa [hak] at hnd

/-- A passed commit check bounds every store-absent key to at most one
occurrence in the batch. -/
theorem pending_once_of_check {db : DB} {P : List ParsedRow}
    {k : Int × String} (hchk : checkCommit db (stagedOf db P) = true)
    (hk : lookupLink db.links k = none) :
    (P.filter (fun p => decide ((p.bizId, p.symCode) = k))).length ≤ 1 := by
  rw [← filter_key_eq_filter_pending_key hk P]
  exact length_filter_key_le_one (check_pending_nodup hchk)

/-- Staged value of the links table at a key, once the commit check
passed: the last occurrence of the key in the batch when it occurs, else
the persisted value.  (For a store-absent key a lookup sees its first
pending INSERT, which the passed check makes the only — hence also the
last — occurrence.) -/
theorem alook_stagedOf_links {db : DB} {P : List ParsedRow}
    (k : Int × String) (hchk : checkCommit db (stagedOf db P) = true) :
    alook (stagedOf db P).links k =
      match findLast P k with
      | some pr => some pr.diag
      | none => (lookupLink db.links k).map Link.diagnostic := by
  show alook (P.foldl (stepL db.links) (linkVals db.links)) k = _
  cases hlk : lookupLink db.links k with
  | some old =>
    rw [foldL_lookup_mem (by simp [hlk]) P, alook_linkVals, hlk]
  | none =>
    have h0 : alook (linkVals db.links) k = none := by
      rw [alook_linkVals, hlk]
      rfl
    rw [foldL_lookup_new hlk P h0,
      ffindL_eq_findLast (pending_once_of_check hchk hlk)]
    cases findLast P k <;> rfl

/-- Key sequence of the staged links: persisted keys first, then one key
per pending INSERT. -/
theorem stagedOf_akeys (db : DB) (P : List ParsedRow) :
    akeys (stagedOf db P).links =
      linkKeys db.links ++ (P.filter (fun p =>
        (lookupLink db.links (p.bizId, p.symCode)).isNone)).map
        (fun p => (p.bizId, p.symCode)) := by
  show akeys (P.foldl (stepL db.links) (linkVals db.links)) = _
  rw [foldL_akeys P _ (fun k hk => by rwa [akeys_linkVals]), akeys_linkVals]

/-- Every key of the batch ends up in the staged key sequence. -/
theorem mem_stagedOf_akeys {db : DB} {P : List ParsedRow} {p : ParsedRow}
    (hp : p ∈ P) : (p.bizId, p.symCode) ∈ akeys (stagedOf db P).links := by
  rw [stagedOf_akeys]
  by_cases hlk : (lookupLink db.links (p.bizId, p.symCode)).isSome
  · exact List.mem_append_left _ (mem_linkKeys_of_isSome hlk)
  · refine List.mem_append_right _ ?_
    refine List.mem_map_of_mem _ (List.mem_filter.mpr ⟨hp, ?_⟩)
    exact isNone_eq_true hlk

/-- Uniqueness of the staged link keys, once the commit check passed. -/
theorem stagedOf_akeys_nodup {db : DB} {P : List ParsedRow}
    (hlnd : (linkKeys db.links).Nodup)
    (hchk : checkCommit db (stagedOf db P) = true) :
    (akeys (stagedOf db P).links).Nodup := by
  rw [stagedOf_akeys]
  rw [List.nodup_append]
  refine ⟨hlnd, check_pending_nodup hchk, ?_⟩
  intro k hk1 hk2
  obtain ⟨p, hp, rfl⟩ := List.mem_map.mp hk2
  have := (List.mem_filter.mp hp).2
  rw [isNone_eq_false (lookupLink_isSome_of_mem hk1)] at this
  exact absurd this (by simp)

/-! ## The claims -/

/-- Empty store used by several concrete check instances. -/
def dbEmpty : DB := ⟨[], [], []⟩

/-- C2. A batch containing a row with a non-numeric business identifier,
or read under a header missing an expected column (the failure surfaces on
the first row access, so a data row must exist), fails with
`ValidationError` and persists nothing. -/
theorem c2_validation_abort (db : DB) (inp : CSVInput) (now : Nat)
    (h : (∃ r ∈ inp.rows, ∃ s, getCol inp.header r "Business ID" = some s ∧
            parseInt s = none) ∨
         (inp.rows ≠ [] ∧ ∃ c ∈ expectedCols, c ∉ inp.header)) :
    importBusinessSymptoms db inp now = .error .validationError ∧
    persistedAfter db inp now = db := by
  have hnone : parseAll inp.header inp.rows = none := by
    rcases h with ⟨r, hr, s, hgc, hpi⟩ | ⟨hne, c, hc, hch⟩
    · exact parseAll_none_of_mem hr (parseRow_none_of_badInt hgc hpi)
    · obtain ⟨r, rest, hrr⟩ : ∃ r rest, inp.rows = r :: rest := by
        cases hrows : inp.rows with
        | nil => exact absurd hrows hne
        | cons a b => exact ⟨a, b, rfl⟩
      exact parseAll_none_of_mem
        (hrr ▸ List.mem_cons_self r rest)
        (parseRow_none_of_missing_col hc hch)
  have herr := @import_validationError_of_parseAll_none db inp now hnone
  refine ⟨herr, ?_⟩
  unfold persistedAfter
  rw [herr]

/-- C2, checked on a concrete batch whose business identifier "x7" is not
numeric. -/
def c2Inp : CSVInput :=
  ⟨expectedCols, [["x7", "Acme", "S1", "Flu", "true"]]⟩

theorem c2_validation_abort_witness :
    importBusinessSymptoms dbEmpty c2Inp 0 = .error .validationError ∧
    persistedAfter dbEmpty c2Inp 0 = dbEmpty :=
  c2_validation_abort dbEmpty c2Inp 0
    (Or.inl ⟨["x7", "Acme", "S1", "Flu", "true"], by decide, "x7", by decide,
      by decide⟩)

/-- C3. A failed import persists nothing, and when every row parsed (so
the loop completed and the failure happened at commit), the reported
failure is `ImportError`. -/
theorem c3_commit_atomicity (db : DB) (inp : CSVInput) (now : Nat)
    (e : ImpErr) (h : importBusinessSymptoms db inp now = .error e) :
    persistedAfter db inp now = db ∧
    ((parseAll inp.header inp.rows).isSome → e = .importError) := by
  refine ⟨?_, ?_⟩
  · unfold persistedAfter
    rw [h]
  · intro hsome
    obtain ⟨P, hP⟩ := Option.isSome_iff_exists.mp hsome
    rw [import_eq_of_parseAll hP] at h
    by_cases hchk : checkCommit db (stagedOf db P)
    · rw [if_pos hchk] at h
      exact absurd h (by simp)
    · rw [if_neg hchk] at h
      exact (Except.error.inj h).symm

/-- C3, checked on a batch whose 21-character symptom code violates the
`String(20)` column constraint, so the store rejects the commit. -/
def c3Inp : CSVInput :=
  ⟨expectedCols, [["1", "Acme", "CCCCCCCCCCCCCCCCCCCCC", "Flu", "true"]]⟩

theorem c3_commit_atomicity_witness :
    persistedAfter dbEmpty c3Inp 5 = dbEmpty ∧
    ((parseAll c3Inp.header c3Inp.rows).isSome →
      ImpErr.importError = ImpErr.importError) :=
  c3_commit_atomicity dbEmpty c3Inp 5 .importError rfl

/-- C4. When no persisted link row satisfies the filter combination, the
query signals `NotFound` instead of returning an empty collection. -/
theorem c4_empty_filter_not_found (db : DB) (bizId : Option Int)
    (diag : Option Bool)
    (h : ∀ l ∈ db.links, linkMatches bizId diag l = false) :
    readBusinessSymptoms db bizId diag = .error .notFound := by
  have hemp :
      (joinOf db db.links).filter (fun t => linkMatches bizId diag t.1) = [] := by
    rw [List.filter_eq_nil_iff]
    intro t ht
    simp [h t.1 (joinOf_fst_mem ht)]
  unfold readBusinessSymptoms
  rw [hemp]
  rfl

/-- C4, checked on a store holding one link for business 1 when the query
filters on business 99. -/
def c4DB : DB := ⟨[(1, "Acme")], [("S1", "Flu")], [⟨1, "S1", true, 0, 0⟩]⟩

theorem c4_empty_filter_not_found_witness :
    readBusinessSymptoms c4DB (some 99) none = .error .notFound :=
  c4_empty_filter_not_found c4DB (some 99) none (by decide)

/-- Batch in which business id 1 appears twice with different names
("Alpha" first, "Beta" last). -/
def c1Inp : CSVInput :=
  ⟨expectedCols, [["1", "Alpha", "S1", "Flu", "true"],
    ["1", "Beta", "S2", "Cough", "true"]]⟩

/-- C1 fails as stated: with id 1 occurring as "Alpha" then "Beta", the
persisted name is "Alpha" — the loop merges a business only on the first
occurrence of its id (`if biz_id not in seen_businesses`), so the last
occurrence does not win. -/
theorem c1_last_name_counterexample :
    alook (persistedAfter dbEmpty c1Inp 0).businesses 1 = some "Alpha" ∧
    ¬ alook (persistedAfter dbEmpty c1Inp 0).businesses 1 = some "Beta" := by
  constructor
  · rfl
  · intro h
    rw [(rfl :
      alook (persistedAfter dbEmpty c1Inp 0).businesses 1 = some "Alpha")] at h
    exact absurd (Option.some.inj h) (by decide)

/-- C1 (amended). Within a batch, the persisted name of a Business whose
id repeats with differing names is the name from the FIRST occurrence of
that id (one scheduled write per distinct id); likewise the persisted name
of a Symptom whose code repeats is taken from its first occurrence. -/
theorem c1_first_occurrence_wins (db : DB) (inp : CSVInput) (now : Nat)
    (P : List ParsedRow)
    (hP : parseAll inp.header inp.rows = some P)
    (hok : importOk db inp now = true) :
    (∀ (i : Int) (p : ParsedRow), ffindB P i = some p →
      alook (persistedAfter db inp now).businesses i = some p.bizName) ∧
    (∀ (c : String) (p : ParsedRow), ffindS P c = some p →
      alook (persistedAfter db inp now).symptoms c = some p.symName) := by
  obtain ⟨hchk, himp, hpa⟩ := import_ok_components hP hok
  rw [hpa]
  constructor
  · intro i p hf
    show alook (P.foldl stepB ([], db.businesses)).2 i = _
    rw [foldB_lookup]
    simp [hf]
  · intro c p hf
    show alook (P.foldl stepS ([], db.symptoms)).2 c = _
    rw [foldS_lookup]
    simp [hf]

/-- Batch repeating business id 1 (as "Alpha" then "Beta") and symptom
code "S1" (as "Flu" then "FluB") while keeping all three link pairs
distinct, so no duplicate pending INSERT arises. -/
def c1WInp : CSVInput :=
  ⟨expectedCols, [["1", "Alpha", "S1", "Flu", "true"],
    ["1", "Beta", "S2", "Cough", "true"],
    ["2", "Gamma", "S1", "FluB", "true"]]⟩

/-- Parsed form of `c1WInp`. -/
def c1WP : List ParsedRow :=
  [⟨1, "Alpha", "S1", "Flu", true⟩, ⟨1, "Beta", "S2", "Cough", true⟩,
    ⟨2, "Gamma", "S1", "FluB", true⟩]

theorem c1_first_occurrence_wins_witness :
    alook (persistedAfter dbEmpty c1WInp 0).businesses 1 = some "Alpha" ∧
    alook (persistedAfter dbEmpty c1WInp 0).symptoms "S1" = some "Flu" :=
  ⟨(c1_first_occurrence_wins dbEmpty c1WInp 0 c1WP rfl rfl).1 1
      ⟨1, "Alpha", "S1", "Flu", true⟩ rfl,
    (c1_first_occurrence_wins dbEmpty c1WInp 0 c1WP rfl rfl).2 "S1"
      ⟨1, "Alpha", "S1", "Flu", true⟩ rfl⟩

/-- C7. The net link upsert of a batch: when the `(business_id,
symptom_code)` key already exists with a different diagnostic value, the
commit overwrites `diagnostic` and sets `updated_at` to now while keeping
`created_at`; when the key is absent it inserts a fresh row with both
timestamps set to now. -/
theorem c7_link_upsert_timestamps (db : DB) (inp : CSVInput) (now : Nat)
    (P : List ParsedRow) (k : Int × String) (pr : ParsedRow)
    (hP : parseAll inp.header inp.rows = some P)
    (hok : importOk db inp now = true)
    (hlast : findLast P k = some pr) :
    (∀ old, lookupLink db.links k = some old → old.diagnostic ≠ pr.diag →
      lookupLink (persistedAfter db inp now).links k =
        some ⟨k.1, k.2, pr.diag, old.created_at, now⟩) ∧
    (lookupLink db.links k = none →
      lookupLink (persistedAfter db inp now).links k =
        some ⟨k.1, k.2, pr.diag, now, now⟩) := by
  obtain ⟨hchk, himp, hpa⟩ := import_ok_components hP hok
  rw [hpa]
  have hstag : alook (stagedOf db P).links k = some pr.diag := by
    rw [alook_stagedOf_links k hchk, hlast]
  have hlk : (commitDB db (stagedOf db P) now).links =
      commitLinks db.links (stagedOf db P).links now := rfl
  constructor
  · intro old hold hne
    rw [hlk, lookupLink_commitLinks, hstag]
    show some (commitOne db.links now (k, pr.diag)) = _
    have h1 : old.business_id = k.1 := congrArg Prod.fst (lookupLink_key hold)
    have h2 : old.symptom_code = k.2 := congrArg Prod.snd (lookupLink_key hold)
    unfold commitOne
    simp [hold, hne, h1, h2]
  · intro hnone
    rw [hlk, lookupLink_commitLinks, hstag]
    show some (commitOne db.links now (k, pr.diag)) = _
    unfold commitOne
    simp [hnone]

/-- Store and batch exercising the UPDATE arm of C7: the persisted link
`(1, "S1")` has diagnostic `true` and timestamps 5/5, and the batch
re-imports it with diagnostic `false` at time 9. -/
def c7DB : DB := ⟨[(1, "Acme")], [("S1", "Flu")], [⟨1, "S1", true, 5, 5⟩]⟩

def c7Inp : CSVInput := ⟨expectedCols, [["1", "Acme", "S1", "Flu", "no"]]⟩

theorem c7_link_upsert_timestamps_witness :
    lookupLink (persistedAfter c7DB c7Inp 9).links (1, "S1") =
      some ⟨1, "S1", false, 5, 9⟩ ∧
    lookupLink (persistedAfter dbEmpty c7Inp 9).links (1, "S1") =
      some ⟨1, "S1", false, 9, 9⟩ :=
  ⟨(c7_link_upsert_timestamps c7DB c7Inp 9 [⟨1, "Acme", "S1", "Flu", false⟩]
      (1, "S1") ⟨1, "Acme", "S1", "Flu", false⟩ rfl rfl rfl).1
      ⟨1, "S1", true, 5, 5⟩ rfl (by decide),
    (c7_link_upsert_timestamps dbEmpty c7Inp 9 [⟨1, "Acme", "S1", "Flu", false⟩]
      (1, "S1") ⟨1, "Acme", "S1", "Flu", false⟩ rfl rfl rfl).2 rfl⟩

/-- Batch in which the pair `(1, "S1")` occurs twice, first diagnostic
`true`, last diagnostic `false`. -/
def c10Inp : CSVInput :=
  ⟨expectedCols, [["1", "Acme", "S1", "Flu", "true"],
    ["1", "Acme", "S1", "Flu", "no"]]⟩

/-- C10 fails as stated when the repeated pair is new to the store: each
unguarded `db.merge` of the still-pending key schedules its own pending
INSERT (`autoflush=False` hides the first from the second), so the commit
violates the composite primary key and the import aborts with nothing
persisted — the pair's diagnostic is not the last occurrence's value, it
is absent. -/
theorem c10_duplicate_pair_counterexample :
    importBusinessSymptoms dbEmpty c10Inp 0 = .error .importError ∧
    lookupLink (persistedAfter dbEmpty c10Inp 0).links (1, "S1") = none :=
  ⟨rfl, rfl⟩

/-- C10 (amended). Occurrences of a pair that is already persisted are all
merged onto the same loaded row (no seen-set guard for links), so the
committed diagnostic is the one from the last occurrence of the pair in
the batch; but for a pair absent from the store, a repeat in the batch
creates duplicate pending INSERTs and the whole import fails at commit
with the duplicate-key rejection (`ImportError`), persisting nothing. -/
theorem c10_duplicate_pair_net_effect (db : DB) (inp : CSVInput) (now : Nat)
    (P : List ParsedRow) (k : Int × String) (pr : ParsedRow)
    (hP : parseAll inp.header inp.rows = some P) :
    ((lookupLink db.links k).isSome → importOk db inp now = true →
      findLast P k = some pr →
      (lookupLink (persistedAfter db inp now).links k).map Link.diagnostic =
        some pr.diag) ∧
    (lookupLink db.links k = none →
      2 ≤ (P.filter (fun p => decide ((p.bizId, p.symCode) = k))).length →
      importBusinessSymptoms db inp now = .error .importError ∧
      persistedAfter db inp now = db) := by
  constructor
  · intro hks hok hlast
    obtain ⟨hchk, himp, hpa⟩ := import_ok_components hP hok
    rw [hpa]
    have hstag : alook (stagedOf db P).links k = some pr.diag := by
      rw [alook_stagedOf_links k hchk, hlast]
    have hlk : (commitDB db (stagedOf db P) now).links =
        commitLinks db.links (stagedOf db P).links now := rfl
    rw [hlk, lookupLink_commitLinks, hstag]
    show some (commitOne db.links now (k, pr.diag)).diagnostic = _
    rw [commitOne_diag]
  · intro hknone htwo
    have hchk : checkCommit db (stagedOf db P) = false := by
      by_contra hc
      have hc' : checkCommit db (stagedOf db P) = true :=
        eq_true_of_ne_false (fun hf => hc hf)
      have := pending_once_of_check hc' hknone
      omega
    have herr : importBusinessSymptoms db inp now = .error .importError := by
      rw [import_eq_of_parseAll hP, if_neg (by simp [hchk])]
    refine ⟨herr, ?_⟩
    unfold persistedAfter
    rw [herr]

/-- Store already holding the pair `(1, "S1")` (diagnostic `true`), for
the last-occurrence-wins arm. -/
def c10DB : DB := ⟨[(1, "Acme")], [("S1", "Flu")], [⟨1, "S1", true, 5, 5⟩]⟩

theorem c10_duplicate_pair_net_effect_witness :
    (lookupLink (persistedAfter c10DB c10Inp 9).links (1, "S1")).map
      Link.diagnostic = some false ∧
    (importBusinessSymptoms dbEmpty c10Inp 0 = .error .importError ∧
      persistedAfter dbEmpty c10Inp 0 = dbEmpty) :=
  ⟨(c10_duplicate_pair_net_effect c10DB c10Inp 9
      [⟨1, "Acme", "S1", "Flu", true⟩, ⟨1, "Acme", "S1", "Flu", false⟩]
      (1, "S1") ⟨1, "Acme", "S1", "Flu", false⟩ rfl).1 (by decide) rfl rfl,
    (c10_duplicate_pair_net_effect dbEmpty c10Inp 0
      [⟨1, "Acme", "S1", "Flu", true⟩, ⟨1, "Acme", "S1", "Flu", false⟩]
      (1, "S1") ⟨1, "Acme", "S1", "Flu", false⟩ rfl).2 rfl (by decide)⟩

/-- C6. A successful query only returns rows satisfying every provided
filter (an omitted filter constrains nothing), and under referential
integrity the result is exactly the filtered link table enriched with the
parent names. -/
theorem c6_conjunctive_filters (db : DB) (bizId : Option Int)
    (diag : Option Bool) (res : List BusinessSymptomOut)
    (h : readBusinessSymptoms db bizId diag = .ok res) :
    (∀ r ∈ res, (∀ bv, bizId = some bv → r.business_id = bv) ∧
      (∀ dv, diag = some dv → r.diagnostic = dv)) ∧
    ((∀ l ∈ db.links, (alook db.businesses l.business_id).isSome ∧
        (alook db.symptoms l.symptom_code).isSome) →
      res = (db.links.filter (linkMatches bizId diag)).map (fun l =>
        projT (l, (alook db.businesses l.business_id).getD "",
          (alook db.symptoms l.symptom_code).getD ""))) := by
  have hres := read_ok_eq h
  constructor
  · intro r hr
    rw [hres] at hr
    obtain ⟨t, ht, rfl⟩ := List.mem_map.mp hr
    have hm := (List.mem_filter.mp ht).2
    unfold linkMatches at hm
    rw [Bool.and_eq_true] at hm
    constructor
    · intro bv hbv
      rw [hbv] at hm
      exact of_decide_eq_true (by simpa using hm.1)
    · intro dv hdv
      rw [hdv] at hm
      exact of_decide_eq_true (by simpa using hm.2)
  · intro hfk
    rw [hres, joinOf_eq_map hfk]
    exact filter_enrich_comm (fun l =>
      ((alook db.businesses l.business_id).getD "",
        (alook db.symptoms l.symptom_code).getD "")) db.links

/-- Store with one diagnostic and one non-diagnostic link for C6. -/
def c6DB : DB :=
  ⟨[(1, "Acme")], [("S1", "Flu"), ("S2", "Cough")],
    [⟨1, "S1", true, 0, 0⟩, ⟨1, "S2", false, 0, 0⟩]⟩

def c6Res : List BusinessSymptomOut := [⟨1, "Acme", "S1", "Flu", true⟩]

theorem c6_conjunctive_filters_witness :
    (∀ r ∈ c6Res, (∀ bv, (none : Option Int) = some bv → r.business_id = bv) ∧
      (∀ dv, (some true : Option Bool) = some dv → r.diagnostic = dv)) ∧
    ((∀ l ∈ c6DB.links, (alook c6DB.businesses l.business_id).isSome ∧
        (alook c6DB.symptoms l.symptom_code).isSome) →
      c6Res = (c6DB.links.filter (linkMatches none (some true))).map (fun l =>
        projT (l, (alook c6DB.businesses l.business_id).getD "",
          (alook c6DB.symptoms l.symptom_code).getD ""))) :=
  c6_conjunctive_filters c6DB none (some true) c6Res rfl

/-- C8. The diagnostic indicator parses to `true` exactly when the
stripped, lowercased field is "true", "1" or "yes"; any other value still
yields a successfully parsed row (with flag `false` by the same equation)
rather than a rejection. -/
theorem c8_diag_truthy (s i n c sn d : String) (v : Int)
    (hv : parseInt i = some v) :
    (parseDiag s = true ↔
      (pyLower (pyStrip s) = "true" ∨ pyLower (pyStrip s) = "1" ∨
        pyLower (pyStrip s) = "yes")) ∧
    parseRow expectedCols [i, n, c, sn, d] =
      some ⟨v, pyStrip n, pyStrip c, pyStrip sn, parseDiag d⟩ := by
  constructor
  · unfold parseDiag
    simp [or_assoc]
  · have h1 : getCol expectedCols [i, n, c, sn, d] "Business ID" = some i := rfl
    have h3 : getCol expectedCols [i, n, c, sn, d] "Business Name" = some n := rfl
    have h4 : getCol expectedCols [i, n, c, sn, d] "Symptom Code" = some c := rfl
    have h5 : getCol expectedCols [i, n, c, sn, d] "Symptom Name" = some sn := rfl
    have h6 : getCol expectedCols [i, n, c, sn, d] "Symptom Diagnostic" =
      some d := rfl
    simp [parseRow, h1, hv, h3, h4, h5, h6]

theorem c8_diag_truthy_witness :
    ((parseDiag " YES " = true ↔
      (pyLower (pyStrip " YES ") = "true" ∨ pyLower (pyStrip " YES ") = "1" ∨
        pyLower (pyStrip " YES ") = "yes")) ∧
    parseRow expectedCols ["7", "A", "S", "N", "banana"] =
      some ⟨7, pyStrip "A", pyStrip "S", pyStrip "N", parseDiag "banana"⟩) ∧
    parseDiag " YES " = true ∧ parseDiag "banana" = false :=
  ⟨c8_diag_truthy " YES " "7" "A" "S" "N" "banana" 7 rfl, by decide, by decide⟩

/-- C9. A successful import reports `rows_processed` equal to the number
of data rows, and an import with zero data rows succeeds, reports zero
and leaves the store unchanged (no-op commit). -/
theorem c9_rows_processed (db : DB) (inp : CSVInput) (now : Nat)
    (hwf : db.Wellformed) :
    (importOk db inp now = true →
      importCount db inp now = inp.rows.length) ∧
    importBusinessSymptoms db ⟨inp.header, []⟩ now = .ok (db, 0) := by
  constructor
  · intro hok
    obtain ⟨P, hP⟩ := import_ok_parseAll hok
    obtain ⟨hchk, himp, hpa⟩ := import_ok_components hP hok
    simp [importCount, himp]
    exact parseAll_length hP
  · have hP : parseAll inp.header ([] : List (List String)) = some [] := rfl
    rw [@import_eq_of_parseAll db ⟨inp.header, []⟩ now [] hP]
    have hstg : stagedOf db ([] : List ParsedRow) = initStaged db := rfl
    rw [hstg, if_pos (checkCommit_self db hwf), commitDB_self now hwf.2.2]
    rfl

/-- Two-row batch for the C9 count check. -/
def c9Inp : CSVInput :=
  ⟨expectedCols, [["1", "Acme", "S1", "Flu", "true"],
    ["2", "Bcme", "S2", "Cough", "no"]]⟩

theorem c9_rows_processed_witness :
    importCount dbEmpty c9Inp 0 = c9Inp.rows.length ∧
    importBusinessSymptoms dbEmpty ⟨c9Inp.header, []⟩ 0 = .ok (dbEmpty, 0) :=
  ⟨(c9_rows_processed dbEmpty c9Inp 0 ⟨by decide, by decide, by decide⟩).1 rfl,
    (c9_rows_processed dbEmpty c9Inp 0 ⟨by decide, by decide, by decide⟩).2⟩

/-- C5. Importing the same CSV a second time reproduces the exact
persisted state of the first import (names, diagnostics and both
timestamps included) and reports the same row count, so every query
returns the same results after the second import as after the first. -/
theorem c5_import_idempotent (db : DB) (inp : CSVInput) (now now2 : Nat)
    (db1 : DB) (n : Nat) (hwf : db.Wellformed)
    (h1 : importBusinessSymptoms db inp now = .ok (db1, n)) :
    importBusinessSymptoms db1 inp now2 = .ok (db1, n) ∧
    (∀ (bizId : Option Int) (diag : Option Bool),
      readBusinessSymptoms (persistedAfter db1 inp now2) bizId diag =
        readBusinessSymptoms db1 bizId diag) := by
  obtain ⟨hbnd, hsnd, hlnd⟩ := hwf
  have hokb : importOk db inp now = true := by
    unfold importOk
    rw [h1]
  obtain ⟨P, hP⟩ := import_ok_parseAll hokb
  obtain ⟨hchk, himp, hpa⟩ := import_ok_components hP hokb
  rw [himp] at h1
  have hinj := Except.ok.inj h1
  have hdb1 : commitDB db (stagedOf db P) now = db1 := congrArg Prod.fst hinj
  have hn : P.length = n := congrArg Prod.snd hinj
  have hb1 : db1.businesses = (P.foldl stepB ([], db.businesses)).2 := by
    rw [← hdb1]
    rfl
  have hs1 : db1.symptoms = (P.foldl stepS ([], db.symptoms)).2 := by
    rw [← hdb1]
    rfl
  have hlv1 : linkVals db1.links = (stagedOf db P).links := by
    rw [← hdb1]
    show linkVals (commitLinks db.links (stagedOf db P).links now) = _
    rw [linkVals_commitLinks]
  have hkeys1 : linkKeys db1.links = akeys (stagedOf db P).links := by
    rw [← hdb1]
    show linkKeys (commitLinks db.links (stagedOf db P).links now) = _
    rw [linkKeys_commitLinks]
  have hnd1 : (akeys (stagedOf db P).links).Nodup :=
    stagedOf_akeys_nodup hlnd hchk
  have hmem1 : ∀ p ∈ P, (lookupLink db1.links (p.bizId, p.symCode)).isSome := by
    intro p hp
    refine lookupLink_isSome_of_mem ?_
    rw [hkeys1]
    exact mem_stagedOf_akeys hp
  have hb2 : (P.foldl stepB ([], db1.businesses)).2 = db1.businesses := by
    refine foldB_noop P [] db1.businesses (fun k p hf _ => ?_)
    rw [hb1, foldB_lookup]
    simp [hf]
  have hs2 : (P.foldl stepS ([], db1.symptoms)).2 = db1.symptoms := by
    refine foldS_noop P [] db1.symptoms (fun k p hf _ => ?_)
    rw [hs1, foldS_lookup]
    simp [hf]
  have hl2 : P.foldl (stepL db1.links) (linkVals db1.links) =
      linkVals db1.links := by
    rw [foldL_eq_foldLU _ hmem1]
    refine alist_ext ?_ (fun k => ?_) ?_
    · refine akeys_foldLU_of_mem P _ (fun p hp => ?_)
      rw [hlv1]
      exact mem_stagedOf_akeys hp
    · rw [foldLU_lookup]
      cases hf : findLast P k with
      | none => rfl
      | some pr =>
        rw [hlv1, alook_stagedOf_links k hchk, hf]
    · rw [akeys_foldLU_of_mem P _ (fun p hp => by
        rw [hlv1]
        exact mem_stagedOf_akeys hp), hlv1]
      exact hnd1
  have hstg2 : stagedOf db1 P = initStaged db1 := by
    unfold stagedOf initStaged
    rw [hb2, hs2, hl2]
  have hwf1 : db1.Wellformed := by
    refine ⟨?_, ?_, ?_⟩
    · rw [hb1]
      exact nodup_akeys_foldB P hbnd
    · rw [hs1]
      exact nodup_akeys_foldS P hsnd
    · rw [hkeys1]
      exact hnd1
  have himp2 : importBusinessSymptoms db1 inp now2 = .ok (db1, n) := by
    rw [@import_eq_of_parseAll db1 inp now2 P hP, hstg2,
      if_pos (checkCommit_self db1 hwf1), commitDB_self now2 hwf1.2.2, hn]
  refine ⟨himp2, fun bizId diag => ?_⟩
  have hpa2 : persistedAfter db1 inp now2 = db1 := by
    unfold persistedAfter
    rw [himp2]
  rw [hpa2]

/-- One-row batch and its persisted result for the C5 check instance. -/
def c5Inp : CSVInput := ⟨expectedCols, [["1", "Acme", "S1", "Flu", "true"]]⟩

def c5DB1 : DB := ⟨[(1, "Acme")], [("S1", "Flu")], [⟨1, "S1", true, 3, 3⟩]⟩

theorem c5_import_idempotent_witness :
    importBusinessSymptoms c5DB1 c5Inp 7 = .ok (c5DB1, 1) ∧
    (∀ (bizId : Option Int) (diag : Option Bool),
      readBusinessSymptoms (persistedAfter c5DB1 c5Inp 7) bizId diag =
        readBusinessSymptoms c5DB1 bizId diag) :=
  c5_import_idempotent dbEmpty c5Inp 3 7 c5DB1 1
    ⟨by decide, by decide, by decide⟩ rfl

end BizSym
